import Mathlib

/-!
# Verification of obsidian-to-org text transformations

A shallow embedding of the text-processing core of `obsidian_to_org/__main__.py`
into Lean 4, together with theorems checking the specification's claims about it.

Text is modelled as `List Char` (Python `str`).  Python's scanning primitives
(`str.split`, `str.replace`, `re.sub` for the concrete regexes of the source,
`str.splitlines(keepends=True)`, `str.strip`, `re.findall` for the frontmatter
tokenizer) are embedded as executable functions.  Scanning functions that
consume a non-constant amount of input use an explicit fuel argument (set to
the input length by a wrapper) so that every definition is structurally
recursive and kernel-evaluable; step lemmas recover the natural recurrences.
-/

namespace ObsidianToOrg

/-- `beginsWith p s`: does `s` start with `p`? (Python `str.startswith`). -/
def beginsWith : List Char → List Char → Bool
  | [], _ => true
  | _ :: _, [] => false
  | p :: ps, c :: cs => p = c && beginsWith ps cs

/-- `endsW p s`: does `s` end with `p`? (Python `str.endswith`). -/
def endsW (p s : List Char) : Bool := beginsWith p.reverse s.reverse

/-- `containsSub p s`: does `p` occur as a contiguous substring of `s`?
(Python `p in s`). -/
def containsSub (p : List Char) : List Char → Bool
  | [] => beginsWith p []
  | c :: cs => beginsWith p (c :: cs) || containsSub p cs

/-- Python whitespace, as stripped by `str.strip()` / matched by `\s`
(ASCII whitespace together with the common Unicode line/space separators). -/
def isPySpace (c : Char) : Bool :=
  c = ' ' || c = '\t' || c = '\n' || c = '\r' || c = '\x0b' || c = '\x0c' ||
  c = '\x1c' || c = '\x1d' || c = '\x1e' || c = '\x1f' || c = '\x85' ||
  c = '\xa0' || c = ' ' || c = ' '

/-- Python `str.strip()`: remove leading and trailing whitespace. -/
def pyStrip (s : List Char) : List Char :=
  ((s.dropWhile isPySpace).reverse.dropWhile isPySpace).reverse

/-- Characters at which Python `str.splitlines` breaks a line. -/
def isLineBreakChar (c : Char) : Bool :=
  c = '\n' || c = '\r' || c = '\x0b' || c = '\x0c' || c = '\x1c' ||
  c = '\x1d' || c = '\x1e' || c = '\x85' || c = ' ' || c = ' '

/-- Python `str.splitlines(keepends=True)`: split into lines, each keeping its
terminator; `"\r\n"` counts as a single terminator; a final line may lack one.
(A one-character string is a single line whether or not the character is a
line break.) -/
def splitLinesKeep : List Char → List (List Char)
  | [] => []
  | [c] => [[c]]
  | c :: d :: r =>
    if c = '\r' ∧ d = '\n' then ['\r', '\n'] :: splitLinesKeep r
    else if isLineBreakChar c then [c] :: splitLinesKeep (d :: r)
    else
      match splitLinesKeep (d :: r) with
      | [] => [[c]]
      | h :: t => (c :: h) :: t

/-- Python `s.split(sep)` for a single-character separator. -/
def splitOnCharL (sep : Char) : List Char → List (List Char)
  | [] => [[]]
  | c :: r =>
    if c = sep then [] :: splitOnCharL sep r
    else
      match splitOnCharL sep r with
      | [] => [[c]]
      | h :: t => (c :: h) :: t

/-- Join a list of strings with a separator (Python `sep.join(xs)`). -/
def joinSep (sep : List Char) : List (List Char) → List Char
  | [] => []
  | [x] => x
  | x :: y :: t => x ++ sep ++ joinSep sep (y :: t)

/-- Fueled worker for `splitOnStrL` (Python `s.split(sep)` with a non-empty
multi-character separator): leftmost, non-overlapping scan. -/
def splitOnStrF (sep : List Char) : Nat → List Char → List (List Char)
  | 0, s => [s]
  | fuel + 1, s =>
    match s with
    | [] => [[]]
    | c :: r =>
      if sep ≠ [] ∧ beginsWith sep (c :: r) = true then
        [] :: splitOnStrF sep fuel (List.drop sep.length (c :: r))
      else
        match splitOnStrF sep fuel r with
        | [] => [[c]]
        | h :: t => (c :: h) :: t

/-- Python `s.split(sep)` for a non-empty separator string. -/
def splitOnStrL (sep s : List Char) : List (List Char) :=
  splitOnStrF sep s.length s

/-- Fueled worker for `replaceAllL` (Python `s.replace(pat, repl)` with a
non-empty pattern): leftmost, non-overlapping scan. -/
def replaceAllF (pat repl : List Char) : Nat → List Char → List Char
  | 0, s => s
  | fuel + 1, s =>
    match s with
    | [] => []
    | c :: r =>
      if pat ≠ [] ∧ beginsWith pat (c :: r) = true then
        repl ++ replaceAllF pat repl fuel (List.drop pat.length (c :: r))
      else
        c :: replaceAllF pat repl fuel r

/-- Python `s.replace(pat, repl)` for a non-empty pattern string. -/
def replaceAllL (pat repl s : List Char) : List Char :=
  replaceAllF pat repl s.length s

/-! ## Comment rewriting (`fix_markdown_comments`, `restore_comments`) -/

/-- The sentinel `COMMENT_MARKER = "#!#comment:"` of the source. -/
def commentMarker : List Char := "#!#comment:".data

/-- `if len(lines) > 0 and lines[0].strip() == "": lines = lines[1:]` —
drop a blank first line. -/
def dropBlankFirst (lines : List (List Char)) : List (List Char) :=
  match lines with
  | [] => []
  | first :: rest => if pyStrip first = [] then rest else first :: rest

/-- The body of one comment chunk, as produced inside the loop of
`fix_markdown_comments`: a chunk containing a newline becomes one
sentinel-marked line per kept line (the first line is dropped when it is
blank), a single-line chunk is wrapped in `<!--` ... `-->`. -/
def commentChunk (chunk : List Char) : List Char :=
  if chunk.contains '\n' then
    ((dropBlankFirst (splitLinesKeep chunk)).map (fun l => commentMarker ++ l)).flatten
  else
    "<!--".data ++ chunk ++ "-->".data

/-- The output loop of `fix_markdown_comments`: chunks produced by splitting
on `"%%"` alternate between plain text (`inside_comment = False`, emitted
unchanged) and comment bodies (`inside_comment = True`). -/
def renderChunks : Bool → List (List Char) → List Char
  | _, [] => []
  | false, c :: rest => c ++ renderChunks true rest
  | true, c :: rest => commentChunk c ++ renderChunks false rest

/-- `fix_markdown_comments`: turn Obsidian `%%` comments into HTML comments
(single-line) or sentinel-marked lines (multi-line). -/
def fixMarkdownCommentsL (s : List Char) : List Char :=
  renderChunks false (splitOnStrL "%%".data s)

/-- `restore_comments`: in each line (keeping ends), replace every occurrence
of the sentinel by `"# "`. -/
def restoreCommentsL (s : List Char) : List Char :=
  ((splitLinesKeep s).map (fun line => replaceAllL commentMarker "# ".data line)).flatten

/-! ## Code block rewriting (`fix_markdown_code_blocks`) -/

/-- Fueled worker for the substitution `re.sub(r"` + "```" + `run-(.*)", r"` +
"```" + `\1", s)`: at each occurrence of "```run-" the rest of the line is
captured and re-emitted after a bare "```". -/
def runBlockSubF : Nat → List Char → List Char
  | 0, s => s
  | fuel + 1, s =>
    match s with
    | [] => []
    | c :: r =>
      if beginsWith "```run-".data (c :: r) then
        let after := List.drop 7 (c :: r)
        "```".data ++ after.takeWhile (· ≠ '\n') ++
          runBlockSubF fuel (after.dropWhile (· ≠ '\n'))
      else
        c :: runBlockSubF fuel r

/-- The `re.sub` on "```run-" blocks of `fix_markdown_code_blocks`. -/
def runBlockSub (s : List Char) : List Char := runBlockSubF s.length s

/-- `fix_markdown_code_blocks`: rewrite "```run-LANG" fences to "```LANG" and
"```sh" to "```shell". -/
def fixMarkdownCodeBlocksL (s : List Char) : List Char :=
  replaceAllL "```sh".data "```shell".data (runBlockSub s)

/-- `prepare_markdown_text`: the pre-conversion normalization pipeline. -/
def prepareMarkdownTextL (s : List Char) : List Char :=
  fixMarkdownCodeBlocksL (fixMarkdownCommentsL s)

/-! ## Link rewriting (`fix_links`)

Each of the concrete regexes `LINK_RE`, `LINK_DESCRIPTION_RE`, `IMAGE_RE`,
`PDF_RE`, `FILE_LINK_RE` of the source is embedded as a matcher
`List Char → Option (captures × rest)` that decides whether the regex matches
at the start of the input, following Python `re` semantics (leftmost position
handled by the generic scanner `subScanF`; at a position, lazy quantifiers try
the continuation first, and the anchoring of each pattern on `]]` makes the
backtracking of the greedy pieces deterministic, as reflected below). -/

/-- The capture scan of `LINK_RE = \[\[([^|\[\.]*?)\]\]` after the opening
brackets: a lazy run of characters other than `|`, `[`, `.` up to the first
`]]`. -/
def linkScan : List Char → Option (List Char × List Char)
  | [] => none
  | [_] => none
  | c :: d :: r =>
    if c = ']' ∧ d = ']' then some ([], r)
    else if c = '|' ∨ c = '[' ∨ c = '.' then none
    else (linkScan (d :: r)).map (fun p => (c :: p.1, p.2))

/-- Match `LINK_RE` at the start of the input; returns the capture and the
rest of the input after the match. -/
def matchLink (s : List Char) : Option (List Char × List Char) :=
  if beginsWith "[[".data s then linkScan (s.drop 2) else none

/-- The group-2 scan of `LINK_DESCRIPTION_RE = \[\[([^\.]*?)\|(.*?)\]\]`:
a lazy run of non-newline characters up to the first `]]`. -/
def descScan2 : List Char → Option (List Char × List Char)
  | [] => none
  | [_] => none
  | c :: d :: r =>
    if c = ']' ∧ d = ']' then some ([], r)
    else if c = '\n' then none
    else (descScan2 (d :: r)).map (fun p => (c :: p.1, p.2))

/-- The group-1 scan of `LINK_DESCRIPTION_RE`: a lazy run of non-`.`
characters; at each `|` the rest of the pattern is tried first, and on its
failure the `|` is consumed and scanning continues. -/
def descScan1 : List Char → Option ((List Char × List Char) × List Char)
  | c :: r =>
    if c = '.' then none
    else if c = '|' then
      match descScan2 r with
      | some (g2, rest) => some (([], g2), rest)
      | none => (descScan1 r).map (fun t => ((c :: t.1.1, t.1.2), t.2))
    else (descScan1 r).map (fun t => ((c :: t.1.1, t.1.2), t.2))
  | [] => none

/-- Match `LINK_DESCRIPTION_RE` at the start of the input. -/
def matchDesc (s : List Char) : Option ((List Char × List Char) × List Char) :=
  if beginsWith "[[".data s then descScan1 (s.drop 2) else none

/-- The extension alternation `(png|jpe?g|svg|gif)` of `IMAGE_RE`. -/
def imageExts : List (List Char) := ["png".data, "jpg".data, "jpeg".data, "svg".data, "gif".data]

/-- The extension alternation `(pdf|PDF)` of `PDF_RE`. -/
def pdfExts : List (List Char) := ["pdf".data, "PDF".data]

/-- The segment of a string after its last `/` (the part of the bracket body
that the group `([^/\]]+\.(...))` must match when a `/` is present). -/
def afterLastSlash : List Char → List Char
  | [] => []
  | c :: r =>
    if r.contains '/' then afterLastSlash r
    else if c = '/' then r
    else c :: r

/-- The segment of a string before its last `/` (the part that the optional
directory group `(?:[^|\[\]\.]*/)?` must match, without the `/` itself). -/
def beforeLastSlash : List Char → List Char
  | [] => []
  | c :: r =>
    if r.contains '/' then c :: beforeLastSlash r
    else if c = '/' then []
    else [c]

/-- Does `R` end in `.` followed by one of `exts`, with at least one character
before the dot (`[^/\]]+\.(EXTS)` consuming all of `R`)? -/
def endsWithExt (exts : List (List Char)) (R : List Char) : Bool :=
  exts.any (fun e => e.length + 2 ≤ R.length && endsW ('.' :: e) R)

/-- Match `IMAGE_RE`/`PDF_RE` (shape `!?\[\[(?:[^|\[\]\.]*/)?([^/\]]+\.(EXTS))\]\]`)
at the start of the input.  Since every content piece of the regex excludes
`]`, a match must close at the first `]`, which must start a `]]`; when the
bracket body contains a `/`, the optional directory group must consume through
the last `/` (the filename group excludes `/`), and its characters must avoid
`|.[]`; the filename group with its trailing extension must consume the whole
remaining body, which pins the extension to the end of the body. -/
def matchEmbed (exts : List (List Char)) (s : List Char) : Option (List Char × List Char) :=
  let t :=
    if beginsWith "![[".data s then some (s.drop 3)
    else if beginsWith "[[".data s then some (s.drop 2)
    else none
  match t with
  | none => none
  | some t =>
    let B := t.takeWhile (· ≠ ']')
    let rest1 := t.dropWhile (· ≠ ']')
    if beginsWith "]]".data rest1 then
      let R := if B.contains '/' then afterLastSlash B else B
      let dirOk :=
        if B.contains '/' then
          (beforeLastSlash B).all (fun c => !(c = '|' || c = '[' || c = ']' || c = '.'))
        else true
      if dirOk && endsWithExt exts R then some (R, rest1.drop 2) else none
    else none

/-- Fueled generic substitution scanner (Python `re.sub` / `Pattern.sub`):
scan left to right; at a match, emit the replacement and continue after the
match, otherwise move one character forward. -/
def subScanF {γ : Type} (m : List Char → Option (γ × List Char)) (repl : γ → List Char) :
    Nat → List Char → List Char
  | 0, s => s
  | fuel + 1, s =>
    match m s with
    | some (g, r) => repl g ++ subScanF m repl fuel r
    | none =>
      match s with
      | [] => []
      | c :: r => c :: subScanF m repl fuel r

/-- Generic substitution with fuel set to the input length (enough fuel for
any matcher that consumes at least one character per match). -/
def subScan {γ : Type} (m : List Char → Option (γ × List Char)) (repl : γ → List Char)
    (s : List Char) : List Char :=
  subScanF m repl s.length s

/-- Replacement template `[[file:\1.org][\1]]` of the `LINK_RE` substitution. -/
def linkRepl (g : List Char) : List Char :=
  "[[file:".data ++ g ++ ".org][".data ++ g ++ "]]".data

/-- Replacement template `[[file:\1.org][\2]]` of the `LINK_DESCRIPTION_RE`
substitution. -/
def descRepl (g : List Char × List Char) : List Char :=
  "[[file:".data ++ g.1 ++ ".org][".data ++ g.2 ++ "]]".data

/-- Replacement template `[[org-roam-images:\1]]` of the `IMAGE_RE`
substitution. -/
def imageRepl (g : List Char) : List Char :=
  "[[org-roam-images:".data ++ g ++ "]]".data

/-- Replacement template `[[org-roam-attachments:\1]]` of the `PDF_RE`
substitution. -/
def pdfRepl (g : List Char) : List Char :=
  "[[org-roam-attachments:".data ++ g ++ "]]".data

/-- `fix_links`: the post-conversion link rewriting pipeline — bare wiki
links, labelled wiki links, image embeds, PDF embeds, then percent-encoded
spaces. -/
def fixLinksL (s : List Char) : List Char :=
  let s := subScan matchLink linkRepl s
  let s := subScan matchDesc descRepl s
  let s := subScan (matchEmbed imageExts) imageRepl s
  let s := subScan (matchEmbed pdfExts) pdfRepl s
  replaceAllL "%20".data " ".data s

/-! ## Frontmatter values (`maybeSplitList`, `get_keys`) -/

/-- A Python value as stored by `get_keys`: either a string or a list of
strings. -/
inductive PyVal where
  | str : List Char → PyVal
  | list : List (List Char) → PyVal
deriving DecidableEq

/-- Is the value a Python list? -/
def PyVal.isList : PyVal → Bool
  | .str _ => false
  | .list _ => true

/-- The quoted-string tail `(?:\\.|[^"])*"` of the tokenizer regex of
`maybeSplitList`, with backtracking (`\\.` is tried first at a backslash, and
on failure the backslash is consumed by `[^"]` alone); returns the matched
characters before the closing quote and the rest of the input. -/
def quotedTail : List Char → Option (List Char × List Char)
  | [] => none
  | '"' :: r =>
    -- star cannot consume the quote by either alternative; close here
    some ([], r)
  | '\\' :: c :: r =>
    if c ≠ '\n' then
      match quotedTail r with
      | some (mid, rest) => some ('\\' :: c :: mid, rest)
      | none =>
        -- backtrack: consume the backslash by [^"] alone
        match quotedTail (c :: r) with
        | some (mid, rest) => some ('\\' :: mid, rest)
        | none => none
    else
      match quotedTail (c :: r) with
      | some (mid, rest) => some ('\\' :: mid, rest)
      | none => none
  | c :: r =>
    match quotedTail r with
    | some (mid, rest) => some (c :: mid, rest)
    | none => none

/-- One unit of the token pattern `(?:[^\s,"]|"(?:\\.|[^"])*")+`: first a
single character not whitespace/comma/quote, otherwise a quoted run. -/
def tokenUnit : List Char → Option (List Char × List Char)
  | [] => none
  | c :: r =>
    if !(isPySpace c) && c ≠ ',' && c ≠ '"' then some ([c], r)
    else if c = '"' then
      match quotedTail r with
      | some (mid, rest) => some ('"' :: mid ++ ['"'], rest)
      | none => none
    else none

/-- Greedy `+` over token units (fueled). -/
def tokenPlusF : Nat → List Char → Option (List Char × List Char)
  | 0, _ => none
  | fuel + 1, s =>
    match tokenUnit s with
    | none => none
    | some (u, rest) =>
      match tokenPlusF fuel rest with
      | some (more, rest2) => some (u ++ more, rest2)
      | none => some (u, rest)

/-- One maximal token at the start of the input, if any. -/
def tokenPlus (s : List Char) : Option (List Char × List Char) :=
  tokenPlusF s.length s

/-- Fueled worker for `re.findall` with the token pattern of
`maybeSplitList`: scan left to right collecting non-overlapping matches. -/
def findTokensF : Nat → List Char → List (List Char)
  | 0, _ => []
  | fuel + 1, s =>
    match s with
    | [] => []
    | c :: r =>
      match tokenPlus (c :: r) with
      | some (tok, rest) => tok :: findTokensF fuel rest
      | none => findTokensF fuel r

/-- `re.findall(r'(?:[^\s,"]|"(?:\\.|[^"])*")+', s)`: split at whitespace or
commas, respecting double-quoted substrings. -/
def findTokens (s : List Char) : List (List Char) := findTokensF s.length s

/-- Python slice `s[1:-1]`: drop the first and the last character. -/
def pySlice1m1 (s : List Char) : List Char := (s.drop 1).dropLast

/-- `maybeSplitList`: if the string represents a list (starts with `[` or
contains a comma), tokenize it (stripping the first and last character when
it starts with `[`); otherwise return it as is. -/
def maybeSplitListL (s : List Char) : PyVal :=
  if 0 < s.length && (beginsWith "[".data s || s.contains ',') then
    let s' := if beginsWith "[".data s then pySlice1m1 s else s
    .list (findTokens s')
  else .str s

/-- Python `dict` assignment `d[k] = v` on an association list: replace the
value of an existing key in place, otherwise append. -/
def dictSet (d : List (List Char × PyVal)) (k : List Char) (v : PyVal) :
    List (List Char × PyVal) :=
  if (d.lookup k).isSome then
    d.map (fun p => if p.1 = k then (k, v) else p)
  else d ++ [(k, v)]

/-- The per-line value normalization of `get_keys`: apply `maybeSplitList`
except for `title`; coerce `tags`/`aliases` scalars to singleton lists. -/
def normalizeVal (key val : List Char) : PyVal :=
  let v : PyVal := if key ≠ "title".data then maybeSplitListL val else .str val
  if (key = "tags".data || key = "aliases".data) && !v.isList then
    .list [match v with | .str s => s | .list _ => []]
  else v

/-- The loop body of `get_keys` over `lines[1:]`: stop at a line equal to
`"---\n"` (note: lines produced by `content.split("\n")` never contain a
newline, so this comparison can never succeed); split each line at the first
`:`; skip empty values; normalize the value. -/
def processKeyLines : List (List Char) → List (List Char × PyVal) → List (List Char × PyVal)
  | [], acc => acc
  | line :: rest, acc =>
    if line = "---\n".data then acc
    else
      let parts := splitOnCharL ':' line
      let key := parts.headD []
      let val := pyStrip (joinSep ":".data (parts.drop 1))
      if val = [] then processKeyLines rest acc
      else processKeyLines rest (dictSet acc key (normalizeVal key val))

/-- `get_keys`: parse the YAML-like frontmatter of a note into a mapping
(the result models the `defaultdict(lambda: "")`; absent keys read as `""`,
see `fmGet`). -/
def getKeysL (content : List Char) : List (List Char × PyVal) :=
  match splitOnCharL '\n' content with
  | [] => []
  | first :: rest => if first = "---".data then processKeyLines rest [] else []

/-! ## Header emission (`add_node_id`) -/

/-- Reading `frontmatter[k]` from the `defaultdict(lambda: "")` of
`get_keys`: an absent key yields the empty string. -/
def fmGet (fm : List (List Char × PyVal)) (k : List Char) : PyVal :=
  (fm.lookup k).getD (.str [])

/-- Python `sep.join(v)` as used on `frontmatter["tags"]` /
`frontmatter["aliases"]`: joining a list joins its elements; joining a string
(the defaultdict default `""`) joins its characters. -/
def pyJoinVal (sep : List Char) : PyVal → List Char
  | .str s => joinSep sep (s.map (fun c => [c]))
  | .list l => joinSep sep l

/-- Python `repr` of a string, as rendered when a list value is formatted by
an f-string (`f"...{value}..."`): single quotes, switching to double quotes
when the string contains a single quote but no double quote; common escapes
only (the frontmatter values formatted here come from single lines of text). -/
def pyReprStr (s : List Char) : List Char :=
  let q : Char := if s.contains '\'' && !(s.contains '"') then '"' else '\''
  let esc : Char → List Char := fun c =>
    if c = '\\' then ['\\', '\\']
    else if c = q then ['\\', q]
    else if c = '\n' then ['\\', 'n']
    else if c = '\r' then ['\\', 'r']
    else if c = '\t' then ['\\', 't']
    else [c]
  q :: (s.map esc).flatten ++ [q]

/-- Python `str(v)` / f-string formatting of a frontmatter value. -/
def pyValFormat : PyVal → List Char
  | .str s => s
  | .list l => '[' :: joinSep ", ".data (l.map pyReprStr) ++ [']']

/-- The title computation of `add_node_id` (lines 186–190 of the source):
start from the base name; override with the frontmatter `title` when present
and the base name does not start with `@`; if the override starts with `"`,
drop its first and last character.  Python calls `.startswith` on the value,
which would raise `AttributeError` on a list value: that failure is modelled
as `none`. -/
def titleOf (basename : List Char) (fm : List (List Char × PyVal)) : Option (List Char) :=
  if (fm.lookup "title".data).isSome && !(beginsWith "@".data basename) then
    match fm.lookup "title".data with
    | some (.str t) => some (if beginsWith "\"".data t then pySlice1m1 t else t)
    | some (.list _) => none
    | none => some basename
  else some basename

/-- The text written by `add_node_id` once the title is computed: property
drawer (ID, optional ROAM_ALIASES, ROAM_REFS for `@` reference notes), title
line, optional created line, optional filetags line, a blank separator, then
the previous file contents. -/
def mkNodeHeader (basename nodeId : List Char) (fm : List (List Char × PyVal))
    (title contents : List Char) : List Char :=
  let tags := pyJoinVal ":".data (fmGet fm "tags".data)
  let aliases := pyJoinVal " ".data (fmGet fm "aliases".data)
  ":PROPERTIES:\n".data ++
  ":ID: ".data ++ nodeId ++ "\n".data ++
  (if aliases ≠ [] then ":ROAM_ALIASES: ".data ++ aliases ++ "\n".data else []) ++
  (if beginsWith "@".data basename then ":ROAM_REFS: [cite:".data ++ basename ++ "]\n".data else []) ++
  ":END:\n".data ++
  "#+title: ".data ++ title ++ "\n".data ++
  (if (fm.lookup "date-created".data).isSome then
    "#+created: [".data ++ pyValFormat (fmGet fm "date-created".data) ++ "]\n".data else []) ++
  (if tags ≠ [] then "#+filetags: :".data ++ tags ++ ":\n".data else []) ++
  "\n\n".data ++ contents

/-- `add_node_id`: rewrite the org file, placing the generated header before
the previous contents.  `basename` is `org_file.stem`, `contents` the previous
file contents; `none` models the `AttributeError` on a list-valued title. -/
def addNodeIdL (basename nodeId : List Char) (fm : List (List Char × PyVal))
    (contents : List Char) : Option (List Char) :=
  (titleOf basename fm).map (fun title => mkNodeHeader basename nodeId fm title contents)

/-! ## Cross-note link resolution (`convert_file_links_to_id_links`) -/

/-- The group scans of `FILE_LINK_RE = \[\[file:(.*?)\]\[(.*?)\]\]`: group 2,
a lazy run of non-newline characters up to the first `]]`. -/
def flScan2 : List Char → Option (List Char × List Char)
  | ']' :: ']' :: r => some ([], r)
  | c :: r =>
    if c = '\n' then none
    else (flScan2 r).map (fun p => (c :: p.1, p.2))
  | [] => none

/-- Group 1 of `FILE_LINK_RE`: a lazy run of non-newline characters; at each
`][` the rest of the pattern is tried first, and on its failure the `]` is
consumed and scanning continues. -/
def flScan1 : List Char → Option ((List Char × List Char) × List Char)
  | ']' :: '[' :: r =>
    (match flScan2 r with
     | some (g2, rest) => some (([], g2), rest)
     | none => (flScan1 ('[' :: r)).map (fun t => ((']' :: t.1.1, t.1.2), t.2)))
  | c :: r =>
    if c = '\n' then none
    else (flScan1 r).map (fun t => ((c :: t.1.1, t.1.2), t.2))
  | [] => none

/-- Match `FILE_LINK_RE` at the start of the input. -/
def matchFileLink (s : List Char) : Option ((List Char × List Char) × List Char) :=
  if beginsWith "[[file:".data s then flScan1 (s.drop 7) else none

/-- `pathlib.Path(p).stem`: the final path component without its suffix
(the part after the last `.`, when that dot is neither the first nor the
last character of the component). -/
def pathStem (p : List Char) : List Char :=
  let name := ((splitOnCharL '/' p).filter (· ≠ [])).getLastD []
  if name.contains '.' then
    let k := (name.reverse.takeWhile (· ≠ '.')).length
    let i := name.length - 1 - k
    if 0 < i ∧ i + 1 < name.length then name.take i else name
  else name

/-- The inner `replace_with_id` of `convert_file_links_to_id_links`: decode
`%20`, look the stem up in the table, and produce an id link, or return the
whole match unchanged when the name is absent. -/
def replaceWithId (nodes : List (List Char × List Char)) (g : List Char × List Char) : List Char :=
  let fileName := replaceAllL "%20".data " ".data g.1
  match nodes.lookup (pathStem fileName) with
  | some nodeId => "[[id:".data ++ nodeId ++ "][".data ++ g.2 ++ "]]".data
  | none => "[[file:".data ++ g.1 ++ "][".data ++ g.2 ++ "]]".data

/-- Modelled from the spec: the substitution
`FILE_LINK_RE.sub(replace_with_id, org_contents)` that the link resolution
operation describes — `convert_file_links_to_id_links` in the source defines
`replace_with_id` but ends without a `return` statement, so this value is
never returned by it. -/
def fileLinkIdRewrite (orgContents : List Char) (nodes : List (List Char × List Char)) :
    List Char :=
  subScan matchFileLink (replaceWithId nodes) orgContents

/-- `convert_file_links_to_id_links` exactly as in the source: the function
body consists of the definition of the inner `replace_with_id` and nothing
else, so control falls off the end and Python returns `None`. -/
def convertFileLinksToIdLinks (orgContents : List Char)
    (nodes : List (List Char × List Char)) : Option (List Char) :=
  none

/-! ## Single-note conversion (`convert_markdown_file`) -/

/-- The outcome of one invocation of the external engine (`pandoc`): its exit
status and the org text it wrote to the output file. -/
structure PandocResult where
  exitCode : Nat
  output : List Char

/-- `convert_markdown_file`, with the external engine as a parameter: prepare
the markdown, run the engine (`subprocess.run(..., check=True)` raises
`CalledProcessError` on a nonzero exit status, modelled as `.error`), then
restore comments, fix links and rewrite the org file (the `.ok` value is the
final content of the org file; on error none of those steps run). -/
def convertMarkdownFileL (pandoc : List Char → PandocResult) (mdContents : List Char) :
    Except (List Char) (List Char) :=
  let res := pandoc (prepareMarkdownTextL mdContents)
  if res.exitCode ≠ 0 then .error "CalledProcessError".data
  else .ok (fixLinksL (restoreCommentsL res.output))

/-! ## Specification-side definitions

These follow the words of the claims being checked, to be compared with the
embedded code. -/

/-- The multi-line conversion described by the claims: each kept line of the
comment block (the leading blank line being dropped), prefixed by the
sentinel. -/
def sentinelLines (c : List Char) : List Char :=
  ((dropBlankFirst (splitLinesKeep c)).map (fun l => commentMarker ++ l)).flatten

/-- The final form described by the claims for a multi-line comment: each kept
line turned into a native org comment line (`"# "` in place of the sentinel). -/
def commentedLines (c : List Char) : List Char :=
  ((dropBlankFirst (splitLinesKeep c)).map (fun l => "# ".data ++ l)).flatten

/-- The amended title rule: frontmatter `title` when present and the base
name does not start with `@` — with its first and last characters removed
whenever it starts with a double quote — and the base name otherwise. -/
def titleAmended (basename : List Char) (fm : List (List Char × PyVal)) : List Char :=
  if beginsWith "@".data basename then basename
  else
    match fm.lookup "title".data with
    | some (.str t) => if beginsWith "\"".data t then pySlice1m1 t else t
    | _ => basename

/-- A matcher consumes part of its input: the rest returned with a match is
strictly shorter than the input.  This is what makes the input length enough
fuel for the generic scanner `subScanF`. -/
def Consumes {γ : Type} (m : List Char → Option (γ × List Char)) : Prop :=
  ∀ s g r, m s = some (g, r) → r.length < s.length

/-! ## Generic lemmas on the string primitives -/

theorem beginsWith_append_self (p y : List Char) : beginsWith p (p ++ y) = true := by
  induction p with
  | nil => rfl
  | cons c cs ih => simp [beginsWith, ih]

theorem length_le_of_beginsWith {p s : List Char} (h : beginsWith p s = true) :
    p.length ≤ s.length := by
  induction p generalizing s with
  | nil => simp
  | cons c cs ih =>
    cases s with
    | nil => simp [beginsWith] at h
    | cons d ds =>
      simp only [beginsWith, Bool.and_eq_true] at h
      simpa using ih h.2

theorem beginsWith_append_left {p a : List Char} (b : List Char)
    (h : p.length ≤ a.length) : beginsWith p (a ++ b) = beginsWith p a := by
  induction p generalizing a with
  | nil => simp [beginsWith]
  | cons c cs ih =>
    cases a with
    | nil => simp at h
    | cons d ds =>
      simp only [List.cons_append, beginsWith, List.append_eq]
      rw [ih (by simpa using h)]

theorem beginsWith_of_append {p q s : List Char}
    (h : beginsWith (p ++ q) s = true) : beginsWith p s = true := by
  induction p generalizing s with
  | nil => rfl
  | cons c cs ih =>
    cases s with
    | nil => simp [beginsWith] at h
    | cons d ds =>
      simp only [List.cons_append, beginsWith, Bool.and_eq_true] at h ⊢
      exact ⟨h.1, ih h.2⟩

theorem beginsWith_cons_false {c d : Char} {p s : List Char} (h : c ≠ d) :
    beginsWith (c :: p) (d :: s) = false := by
  simp [beginsWith, h]

theorem containsSub_nil (p : List Char) : containsSub p [] = beginsWith p [] := rfl

theorem containsSub_cons (p : List Char) (c : Char) (cs : List Char) :
    containsSub p (c :: cs) = (beginsWith p (c :: cs) || containsSub p cs) := rfl

theorem beginsWith_drop_false_of_not_containsSub {p s : List Char}
    (h : containsSub p s = false) (n : Nat) : beginsWith p (s.drop n) = false := by
  induction s generalizing n with
  | nil =>
    simp only [List.drop_nil]
    simpa [containsSub] using h
  | cons c cs ih =>
    rw [containsSub_cons, Bool.or_eq_false_iff] at h
    cases n with
    | zero => exact h.1
    | succ m => exact ih h.2 m

theorem containsSub_false_of_head_notMem {c : Char} {p s : List Char} (h : c ∉ s) :
    containsSub (c :: p) s = false := by
  induction s with
  | nil => simp [containsSub, beginsWith]
  | cons d ds ih =>
    simp only [List.mem_cons, not_or] at h
    rw [containsSub_cons, Bool.or_eq_false_iff]
    exact ⟨beginsWith_cons_false h.1, ih h.2⟩

theorem containsSub_of_beginsWith {p s : List Char} (h : beginsWith p s = true) :
    containsSub p s = true := by
  cases s with
  | nil => simpa [containsSub] using h
  | cons c cs => rw [containsSub_cons, h, Bool.true_or]

theorem containsSub_of_containsSub_append {p q s : List Char}
    (h : containsSub (p ++ q) s = true) : containsSub p s = true := by
  induction s with
  | nil => exact containsSub_of_beginsWith (beginsWith_of_append h)
  | cons c cs ih =>
    rw [containsSub_cons, Bool.or_eq_true] at h
    rcases h with h | h
    · exact containsSub_of_beginsWith (beginsWith_of_append h)
    · rw [containsSub_cons, ih h, Bool.or_true]

theorem containsSub_append_left_free {c : Char} {p a y : List Char} (h : c ∉ a) :
    containsSub (c :: p) (a ++ y) = containsSub (c :: p) y := by
  induction a with
  | nil => rfl
  | cons d ds ih =>
    simp only [List.mem_cons, not_or] at h
    rw [List.cons_append, containsSub_cons, beginsWith_cons_false h.1,
      Bool.false_or, ih h.2]

theorem containsSub_sandwich (p x y : List Char) :
    containsSub p (x ++ p ++ y) = true := by
  induction x with
  | nil =>
    simp only [List.nil_append]
    exact containsSub_of_beginsWith (beginsWith_append_self p y)
  | cons c cs ih =>
    have h1 : c :: cs ++ p ++ y = c :: (cs ++ p ++ y) := by simp
    rw [h1, containsSub_cons, ih, Bool.or_true]

/-! ## Step equations for the fueled scanners -/

theorem subScanF_nil {γ : Type} {m : List Char → Option (γ × List Char)}
    (hm : Consumes m) (repl : γ → List Char) (f : Nat) :
    subScanF m repl f [] = [] := by
  cases f with
  | zero => rfl
  | succ k =>
    have hnone : m [] = none := by
      cases h : m [] with
      | none => rfl
      | some p => exact absurd (hm [] p.1 p.2 (by rw [h])) (by simp)
    simp [subScanF, hnone]

theorem subScanF_fuel_eq {γ : Type} {m : List Char → Option (γ × List Char)}
    (hm : Consumes m) (repl : γ → List Char) :
    ∀ f k s, s.length ≤ f → s.length ≤ k → subScanF m repl f s = subScanF m repl k s := by
  intro f
  induction f with
  | zero =>
    intro k s hf hk
    have : s = [] := by
      cases s with
      | nil => rfl
      | cons c cs => simp at hf
    subst this
    rw [subScanF_nil hm, subScanF_nil hm]
  | succ n ih =>
    intro k s hf hk
    cases s with
    | nil => rw [subScanF_nil hm, subScanF_nil hm]
    | cons c cs =>
      cases k with
      | zero => simp at hk
      | succ j =>
        cases h : m (c :: cs) with
        | some p =>
          obtain ⟨g, r⟩ := p
          have hr : r.length < (c :: cs).length := hm _ _ _ h
          simp only [subScanF, h]
          rw [ih j r (by simp at hr hf ⊢; omega) (by simp at hr hk ⊢; omega)]
        | none =>
          simp only [subScanF, h]
          rw [ih j cs (by simpa using hf) (by simpa using hk)]

theorem subScan_nil {γ : Type} (m : List Char → Option (γ × List Char))
    (repl : γ → List Char) : subScan m repl [] = [] := rfl

theorem subScan_cons_none {γ : Type} {m : List Char → Option (γ × List Char)}
    (repl : γ → List Char) {c : Char} {r : List Char} (h : m (c :: r) = none) :
    subScan m repl (c :: r) = c :: subScan m repl r := by
  simp [subScan, subScanF, h]

theorem subScan_match {γ : Type} {m : List Char → Option (γ × List Char)}
    (hm : Consumes m) (repl : γ → List Char) {s : List Char} {g : γ} {r : List Char}
    (h : m s = some (g, r)) :
    subScan m repl s = repl g ++ subScan m repl r := by
  have hr : r.length < s.length := hm _ _ _ h
  cases s with
  | nil => simp at hr
  | cons c cs =>
    simp only [subScan, List.length_cons, subScanF, h]
    rw [subScanF_fuel_eq hm repl cs.length r.length r (by simp at hr; omega) (by omega)]

theorem subScan_eq_self {γ : Type} {m : List Char → Option (γ × List Char)}
    (repl : γ → List Char) {s : List Char} (h : ∀ n, m (s.drop n) = none) :
    subScan m repl s = s := by
  induction s with
  | nil => rfl
  | cons c cs ih =>
    rw [subScan_cons_none repl (h 0), ih (fun n => h (n + 1))]

theorem splitOnStrF_ne_nil (sep : List Char) :
    ∀ f s, splitOnStrF sep f s ≠ [] := by
  intro f
  induction f with
  | zero => intro s; simp [splitOnStrF]
  | succ k ih =>
    intro s
    cases s with
    | nil => simp [splitOnStrF]
    | cons c cs =>
      simp only [splitOnStrF]
      by_cases hb : sep ≠ [] ∧ beginsWith sep (c :: cs) = true
      · rw [if_pos hb]; simp
      · rw [if_neg hb]
        cases h : splitOnStrF sep k cs with
        | nil => simp
        | cons a b => simp

theorem splitOnStrF_fuel_eq (sep : List Char) :
    ∀ f k s, s.length ≤ f → s.length ≤ k → splitOnStrF sep f s = splitOnStrF sep k s := by
  intro f
  induction f with
  | zero =>
    intro k s hf hk
    have : s = [] := by cases s with
      | nil => rfl
      | cons c cs => simp at hf
    subst this
    cases k with
    | zero => rfl
    | succ j => rfl
  | succ n ih =>
    intro k s hf hk
    cases s with
    | nil =>
      cases k with
      | zero => rfl
      | succ j => rfl
    | cons c cs =>
      cases k with
      | zero => simp at hk
      | succ j =>
        simp only [splitOnStrF]
        by_cases hb : sep ≠ [] ∧ beginsWith sep (c :: cs) = true
        · rw [if_pos hb, if_pos hb]
          have hsep : 1 ≤ sep.length := by
            cases sep with
            | nil => exact absurd rfl hb.1
            | cons a b => simp
          have hlen : (List.drop sep.length (c :: cs)).length ≤ cs.length := by
            simp only [List.length_drop, List.length_cons]
            omega
          rw [ih j _ (le_trans hlen (by simpa using hf)) (le_trans hlen (by simpa using hk))]
        · rw [if_neg hb, if_neg hb]
          rw [ih j cs (by simpa using hf) (by simpa using hk)]

theorem splitOnStr_nil (sep : List Char) : splitOnStrL sep [] = [[]] := rfl

theorem splitOnStr_pos {sep : List Char} (hsep : sep ≠ []) {s : List Char}
    (h : beginsWith sep s = true) :
    splitOnStrL sep s = [] :: splitOnStrL sep (s.drop sep.length) := by
  cases s with
  | nil =>
    exfalso
    have := length_le_of_beginsWith h
    cases sep with
    | nil => exact hsep rfl
    | cons a b => simp at this
  | cons c cs =>
    have hsep1 : 1 ≤ sep.length := by
      cases sep with
      | nil => exact absurd rfl hsep
      | cons a b => simp
    simp only [splitOnStrL, List.length_cons, splitOnStrF]
    rw [if_pos ⟨hsep, h⟩]
    rw [splitOnStrF_fuel_eq sep cs.length (List.drop sep.length (c :: cs)).length _
      (by simp; omega) (by omega)]

theorem splitOnStr_neg {sep : List Char} {c : Char} {r : List Char}
    (h : beginsWith sep (c :: r) = false) :
    splitOnStrL sep (c :: r) =
      match splitOnStrL sep r with
      | [] => [[c]]
      | h :: t => (c :: h) :: t := by
  simp only [splitOnStrL, List.length_cons, splitOnStrF]
  rw [if_neg (by simp [h])]

theorem replaceAllF_fuel_eq (pat repl : List Char) :
    ∀ f k s, s.length ≤ f → s.length ≤ k →
      replaceAllF pat repl f s = replaceAllF pat repl k s := by
  intro f
  induction f with
  | zero =>
    intro k s hf hk
    have : s = [] := by cases s with
      | nil => rfl
      | cons c cs => simp at hf
    subst this
    cases k with
    | zero => rfl
    | succ j => rfl
  | succ n ih =>
    intro k s hf hk
    cases s with
    | nil =>
      cases k with
      | zero => rfl
      | succ j => rfl
    | cons c cs =>
      cases k with
      | zero => simp at hk
      | succ j =>
        simp only [replaceAllF]
        by_cases hb : pat ≠ [] ∧ beginsWith pat (c :: cs) = true
        · rw [if_pos hb, if_pos hb]
          have hp : 1 ≤ pat.length := by
            cases pat with
            | nil => exact absurd rfl hb.1
            | cons a b => simp
          have hlen : (List.drop pat.length (c :: cs)).length ≤ cs.length := by
            simp only [List.length_drop, List.length_cons]
            omega
          rw [ih j _ (le_trans hlen (by simpa using hf)) (le_trans hlen (by simpa using hk))]
        · rw [if_neg hb, if_neg hb]
          rw [ih j cs (by simpa using hf) (by simpa using hk)]

theorem replaceAll_nil (pat repl : List Char) : replaceAllL pat repl [] = [] := rfl

theorem replaceAll_pos {pat : List Char} (repl : List Char) (hpat : pat ≠ [])
    {s : List Char} (h : beginsWith pat s = true) :
    replaceAllL pat repl s = repl ++ replaceAllL pat repl (s.drop pat.length) := by
  cases s with
  | nil =>
    exfalso
    have := length_le_of_beginsWith h
    cases pat with
    | nil => exact hpat rfl
    | cons a b => simp at this
  | cons c cs =>
    have hp : 1 ≤ pat.length := by
      cases pat with
      | nil => exact absurd rfl hpat
      | cons a b => simp
    simp only [replaceAllL, List.length_cons, replaceAllF]
    rw [if_pos ⟨hpat, h⟩]
    rw [replaceAllF_fuel_eq pat repl cs.length (List.drop pat.length (c :: cs)).length _
      (by simp; omega) (by omega)]

theorem replaceAll_neg {pat : List Char} (repl : List Char) {c : Char} {r : List Char}
    (h : beginsWith pat (c :: r) = false) :
    replaceAllL pat repl (c :: r) = c :: replaceAllL pat repl r := by
  simp only [replaceAllL, List.length_cons, replaceAllF]
  rw [if_neg (by simp [h])]

theorem replaceAll_marker_step (pat repl y : List Char) (hpat : pat ≠ []) :
    replaceAllL pat repl (pat ++ y) = repl ++ replaceAllL pat repl y := by
  rw [replaceAll_pos repl hpat (beginsWith_append_self pat y), List.drop_left]

theorem replaceAll_not_contains {pat : List Char} (repl : List Char) {s : List Char}
    (h : containsSub pat s = false) : replaceAllL pat repl s = s := by
  induction s with
  | nil => rfl
  | cons c cs ih =>
    rw [containsSub_cons, Bool.or_eq_false_iff] at h
    rw [replaceAll_neg repl h.1, ih h.2]

theorem replaceAll_append_free {c0 : Char} {pat : List Char} (repl : List Char)
    {a : List Char} (y : List Char) (hp : pat = c0 :: pat.tail) (ha : c0 ∉ a) :
    replaceAllL pat repl (a ++ y) = a ++ replaceAllL pat repl y := by
  induction a with
  | nil => rfl
  | cons d ds ih =>
    simp only [List.mem_cons, not_or] at ha
    rw [List.cons_append,
      replaceAll_neg repl (by rw [hp]; exact beginsWith_cons_false ha.1), ih ha.2]
    simp

/-! ## Derived lemmas on splitting and chunk rendering -/

theorem splitOnStr_single {sep s : List Char} (h : containsSub sep s = false) :
    splitOnStrL sep s = [s] := by
  induction s with
  | nil => rfl
  | cons c cs ih =>
    rw [containsSub_cons, Bool.or_eq_false_iff] at h
    rw [splitOnStr_neg h.1, ih h.2]

theorem splitOnStr_append_marker {s0 : Char} {sep : List Char}
    (hsep : sep = s0 :: sep.tail) {x : List Char} (y : List Char) (hx : s0 ∉ x) :
    splitOnStrL sep (x ++ sep ++ y) = x :: splitOnStrL sep y := by
  induction x with
  | nil =>
    have hne : sep ≠ [] := by rw [hsep]; simp
    simp only [List.nil_append]
    rw [splitOnStr_pos hne (beginsWith_append_self sep y), List.drop_left]
  | cons d ds ih =>
    simp only [List.mem_cons, not_or] at hx
    have hb : beginsWith sep (d :: (ds ++ sep ++ y)) = false := by
      rw [hsep]
      exact beginsWith_cons_false hx.1
    have h1 : d :: ds ++ sep ++ y = d :: (ds ++ sep ++ y) := by simp
    rw [h1, splitOnStr_neg hb, ih hx.2]

theorem getLast?_cons_ne_nil {α : Type} {a : α} {l : List α} (h : l ≠ []) :
    (a :: l).getLast? = l.getLast? := by
  cases l with
  | nil => exact absurd rfl h
  | cons b t => exact List.getLast?_cons_cons

/-- The separator `"%%"` of `fix_markdown_comments`. -/
theorem splitOnStr_mm_append_last :
    ∀ n (p c : List Char), p.length ≤ n → p.getLast? ≠ some '%' →
      containsSub "%%".data c = false →
      splitOnStrL "%%".data (p ++ "%%".data ++ c) = splitOnStrL "%%".data p ++ [c] := by
  have hmm : ("%%".data : List Char) = ['%', '%'] := rfl
  intro n
  induction n with
  | zero =>
    intro p c hp hlast hc
    have : p = [] := by cases p with
      | nil => rfl
      | cons a b => simp at hp
    subst this
    simp only [List.nil_append, splitOnStr_nil]
    rw [splitOnStr_pos (by simp [hmm]) (beginsWith_append_self _ c), List.drop_left,
      splitOnStr_single hc]
    rfl
  | succ n ih =>
    intro p c hp hlast hc
    cases p with
    | nil =>
      simp only [List.nil_append, splitOnStr_nil]
      rw [splitOnStr_pos (by simp [hmm]) (beginsWith_append_self _ c), List.drop_left,
        splitOnStr_single hc]
      rfl
    | cons d ds =>
      cases ds with
      | nil =>
        have hd : d ≠ '%' := by
          simp only [List.getLast?_singleton, ne_eq, Option.some.injEq] at hlast
          exact hlast
        have hbf : beginsWith "%%".data (d :: ("%%".data ++ c)) = false := by
          rw [hmm]; exact beginsWith_cons_false (Ne.symm hd)
        have hbf2 : beginsWith "%%".data (d :: ([] : List Char)) = false := by
          rw [hmm]; exact beginsWith_cons_false (Ne.symm hd)
        have h1 : [d] ++ "%%".data ++ c = d :: ("%%".data ++ c) := by simp
        rw [h1, splitOnStr_neg hbf,
          splitOnStr_pos (by rw [hmm]; simp) (beginsWith_append_self _ c), List.drop_left,
          splitOnStr_single hc, splitOnStr_neg hbf2]
        rfl
      | cons e ds' =>
        by_cases hde : d = '%' ∧ e = '%'
        · -- p itself starts with "%%"
          obtain ⟨hd, he⟩ := hde
          subst hd
          subst he
          have hds' : ds' ≠ [] := by
            intro hnil
            subst hnil
            simp at hlast
          have hlast' : ds'.getLast? ≠ some '%' := by
            rw [List.getLast?_cons_cons, getLast?_cons_ne_nil hds'] at hlast
            exact hlast
          have h1 : '%' :: '%' :: ds' ++ "%%".data ++ c = '%' :: '%' :: (ds' ++ "%%".data ++ c) := by
            simp
          have hbw : beginsWith "%%".data ('%' :: '%' :: (ds' ++ "%%".data ++ c)) = true := by
            rw [hmm]; simp [beginsWith]
          have hbw2 : beginsWith "%%".data ('%' :: '%' :: ds') = true := by
            rw [hmm]; simp [beginsWith]
          rw [h1, splitOnStr_pos (by rw [hmm]; simp) hbw,
            splitOnStr_pos (by rw [hmm]; simp) hbw2]
          have hdrop1 : List.drop ("%%".data).length ('%' :: '%' :: (ds' ++ "%%".data ++ c)) =
              ds' ++ "%%".data ++ c := by rw [hmm]; simp
          have hdrop2 : List.drop ("%%".data).length ('%' :: '%' :: ds') = ds' := by
            rw [hmm]; simp
          rw [hdrop1, hdrop2, ih ds' c (by simp at hp; omega) hlast' hc]
          rfl
        · -- no marker at the head of p
          have hbf : beginsWith "%%".data (d :: e :: ds') = false := by
            rw [hmm]
            by_cases hd : d = '%'
            · have he : e ≠ '%' := fun he => hde ⟨hd, he⟩
              subst hd
              simp [beginsWith, Ne.symm he]
            · simp [beginsWith, Ne.symm hd]
          have hlast' : (e :: ds').getLast? ≠ some '%' := by
            rwa [getLast?_cons_ne_nil (by simp : (e :: ds') ≠ [])] at hlast
          have hb2 : beginsWith "%%".data (d :: (e :: ds' ++ "%%".data ++ c)) = false := by
            have hlen : ("%%".data).length ≤ (d :: e :: ds').length := by rw [hmm]; simp
            have h3 : d :: (e :: ds' ++ "%%".data ++ c) = (d :: e :: ds') ++ ("%%".data ++ c) := by
              simp
            rw [h3, beginsWith_append_left _ hlen]
            exact hbf
          have h1 : d :: e :: ds' ++ "%%".data ++ c = d :: (e :: ds' ++ "%%".data ++ c) := by
            simp
          rw [h1, splitOnStr_neg hb2, splitOnStr_neg hbf,
            ih (e :: ds') c (by simp at hp ⊢; omega) hlast' hc]
          cases h2 : splitOnStrL "%%".data (e :: ds') with
          | nil => exact absurd h2 (splitOnStrF_ne_nil _ _ _)
          | cons a b => simp

theorem renderChunks_append (xs ys : List (List Char)) :
    ∀ b, renderChunks b (xs ++ ys) =
      renderChunks b xs ++ renderChunks (if xs.length % 2 = 1 then !b else b) ys := by
  induction xs with
  | nil => intro b; simp [renderChunks]
  | cons x xs' ih =>
    intro b
    have hflag : (if (x :: xs').length % 2 = 1 then !b else b) =
        (if xs'.length % 2 = 1 then !(!b) else !b) := by
      by_cases h : xs'.length % 2 = 1
      · rw [if_neg (by simp only [List.length_cons]; omega), if_pos h, Bool.not_not]
      · rw [if_pos (by simp only [List.length_cons]; omega), if_neg h]
    cases b with
    | false =>
      simp only [List.cons_append, renderChunks, hflag, List.append_eq,
        Bool.not_false, Bool.not_true, Bool.not_not]
      rw [ih true]
      simp only [List.append_assoc]
      by_cases h : xs'.length % 2 = 1
      · rw [if_pos h, if_neg (show ¬((x :: xs').length % 2 = 1) by
          simp only [List.length_cons]; omega)]
        simp
      · rw [if_neg h, if_pos (show (x :: xs').length % 2 = 1 by
          simp only [List.length_cons]; omega)]
    | true =>
      simp only [List.cons_append, renderChunks, hflag, List.append_eq,
        Bool.not_false, Bool.not_true, Bool.not_not]
      rw [ih false]
      simp only [List.append_assoc]
      by_cases h : xs'.length % 2 = 1
      · rw [if_pos h, if_neg (show ¬((x :: xs').length % 2 = 1) by
          simp only [List.length_cons]; omega)]
        simp
      · rw [if_neg h, if_pos (show (x :: xs').length % 2 = 1 by
          simp only [List.length_cons]; omega)]

/-! ## Identity of the normalization passes on plain text -/

theorem fixMarkdownComments_id {s : List Char} (h : containsSub "%%".data s = false) :
    fixMarkdownCommentsL s = s := by
  unfold fixMarkdownCommentsL
  rw [splitOnStr_single h]
  simp [renderChunks]

theorem runBlockSubF_not_contains :
    ∀ f {s : List Char}, containsSub "```".data s = false → runBlockSubF f s = s := by
  intro f
  induction f with
  | zero => intro s h; rfl
  | succ n ih =>
    intro s h
    cases s with
    | nil => rfl
    | cons c r =>
      rw [containsSub_cons, Bool.or_eq_false_iff] at h
      have hb : beginsWith "```run-".data (c :: r) = false := by
        cases hbc : beginsWith "```run-".data (c :: r) with
        | false => rfl
        | true =>
          exact absurd (beginsWith_of_append
            (by rw [show ("```".data ++ "run-".data : List Char) = "```run-".data from rfl]
                exact hbc)) (by rw [h.1]; simp)
      simp only [runBlockSubF]
      rw [if_neg (by simp [hb]), ih h.2]

theorem runBlockSub_not_contains {s : List Char}
    (h : containsSub "```".data s = false) : runBlockSub s = s :=
  runBlockSubF_not_contains _ h

theorem prepareMarkdownText_id {s : List Char}
    (hpct : containsSub "%%".data s = false) (hbt : containsSub "```".data s = false) :
    prepareMarkdownTextL s = s := by
  have hsh : containsSub "```sh".data s = false := by
    cases hc : containsSub "```sh".data s with
    | false => rfl
    | true =>
      exact absurd (containsSub_of_containsSub_append
        (by rw [show ("```".data ++ "sh".data : List Char) = "```sh".data from rfl]
            exact hc)) (by rw [hbt]; simp)
  unfold prepareMarkdownTextL fixMarkdownCodeBlocksL
  rw [fixMarkdownComments_id hpct, runBlockSub_not_contains hbt,
    replaceAll_not_contains _ hsh]

theorem matchLink_none {s : List Char} (h : beginsWith "[[".data s = false) :
    matchLink s = none := by
  simp [matchLink, h]

theorem matchDesc_none {s : List Char} (h : beginsWith "[[".data s = false) :
    matchDesc s = none := by
  simp [matchDesc, h]

theorem beginsWith_bang {s : List Char} (h : beginsWith "![[".data s = true) :
    beginsWith "[[".data (s.drop 1) = true := by
  cases s with
  | nil => simp [beginsWith] at h
  | cons c cs =>
    simp only [List.drop_succ_cons, List.drop_zero]
    have : beginsWith "![[".data (c :: cs) =
        (decide ('!' = c) && beginsWith "[[".data cs) := rfl
    rw [this, Bool.and_eq_true] at h
    exact h.2

theorem matchEmbed_none (exts : List (List Char)) {s : List Char}
    (h0 : beginsWith "[[".data s = false) (h1 : beginsWith "![[".data s = false) :
    matchEmbed exts s = none := by
  simp [matchEmbed, h0, h1]

theorem noLinkMatches {s : List Char} (h : containsSub "[[".data s = false) :
    ∀ n, matchLink (s.drop n) = none := fun n =>
  matchLink_none (beginsWith_drop_false_of_not_containsSub h n)

theorem noDescMatches {s : List Char} (h : containsSub "[[".data s = false) :
    ∀ n, matchDesc (s.drop n) = none := fun n =>
  matchDesc_none (beginsWith_drop_false_of_not_containsSub h n)

theorem noEmbedMatches (exts : List (List Char)) {s : List Char}
    (h : containsSub "[[".data s = false) :
    ∀ n, matchEmbed exts (s.drop n) = none := by
  intro n
  apply matchEmbed_none
  · exact beginsWith_drop_false_of_not_containsSub h n
  · cases hb : beginsWith "![[".data (s.drop n) with
    | false => rfl
    | true =>
      have h2 := beginsWith_bang hb
      rw [List.drop_drop] at h2
      rw [beginsWith_drop_false_of_not_containsSub h (n + 1)] at h2
      exact absurd h2 (by simp)

theorem fixLinks_id {s : List Char} (hbr : containsSub "[[".data s = false)
    (hpc : containsSub "%20".data s = false) : fixLinksL s = s := by
  show replaceAllL "%20".data " ".data
      (subScan (matchEmbed pdfExts) pdfRepl
        (subScan (matchEmbed imageExts) imageRepl
          (subScan matchDesc descRepl (subScan matchLink linkRepl s)))) = s
  rw [subScan_eq_self _ (noLinkMatches hbr), subScan_eq_self _ (noDescMatches hbr),
    subScan_eq_self _ (noEmbedMatches imageExts hbr),
    subScan_eq_self _ (noEmbedMatches pdfExts hbr),
    replaceAll_not_contains _ hpc]

/-! ## Claim theorems -/

/-- C8: for every text containing none of the special syntaxes (no `%%`, no
fenced code block tags, no double-bracket links or embeds, no `%20`), the
pre-conversion normalization (`prepare_markdown_text`) and the
post-conversion normalization (`fix_links`) each return the text unchanged. -/
theorem normalization_id_on_plain_text (s : List Char)
    (h1 : containsSub "%%".data s = false)
    (h2 : containsSub "```".data s = false)
    (h3 : containsSub "[[".data s = false)
    (h4 : containsSub "%20".data s = false) :
    prepareMarkdownTextL s = s ∧ fixLinksL s = s :=
  ⟨prepareMarkdownText_id h1 h2, fixLinks_id h3 h4⟩

/-- Witness for C8 at a plain paragraph. -/
theorem normalization_id_on_plain_text_witness :
    containsSub "%%".data "A plain paragraph.\nSecond line here.".data = false ∧
    containsSub "```".data "A plain paragraph.\nSecond line here.".data = false ∧
    containsSub "[[".data "A plain paragraph.\nSecond line here.".data = false ∧
    containsSub "%20".data "A plain paragraph.\nSecond line here.".data = false ∧
    (prepareMarkdownTextL "A plain paragraph.\nSecond line here.".data =
      "A plain paragraph.\nSecond line here.".data ∧
     fixLinksL "A plain paragraph.\nSecond line here.".data =
      "A plain paragraph.\nSecond line here.".data) :=
  ⟨by decide, by decide, by decide, by decide,
   normalization_id_on_plain_text "A plain paragraph.\nSecond line here.".data
     (by decide) (by decide) (by decide) (by decide)⟩

/-- C1 (code bug): `convert_file_links_to_id_links` never returns the rewritten
text: its body defines `replace_with_id` and then falls off the end, so it
returns `None` — here, at an org text holding a file link whose decoded name
is a key of the table, the function yields `none` while the substitution
`FILE_LINK_RE.sub(replace_with_id, ...)` it evidently intends to return
yields the id link the claim describes (`convert_directory` then calls
`org_path.write_text(None)`, a `TypeError`). -/
theorem convert_file_links_returns_none :
    convertFileLinksToIdLinks "See [[file:Note%20A.org][hello]].".data
      [("Note A".data, "ID1".data)] = none ∧
    fileLinkIdRewrite "See [[file:Note%20A.org][hello]].".data
      [("Note A".data, "ID1".data)] = "See [[id:ID1][hello]].".data ∧
    fileLinkIdRewrite "See [[file:Note%20B.org][x]].".data
      [("Note A".data, "ID1".data)] = "See [[file:Note%20B.org][x]].".data :=
  ⟨rfl, by decide, by decide⟩

/-- C2 (code bug): `get_keys` does not stop at the closing `---` delimiter:
`lines = content.split("\n")` produces lines with no trailing newline, so the
break test `lines[i] == "---\n"` never succeeds and key/value lines after the
closing `---` still contribute keys (here `c: d`); for a text whose first
line is not `---`, the mapping is empty as claimed. -/
theorem get_keys_scans_past_delimiter :
    getKeysL "---\na: b\n---\nc: d".data =
      [("a".data, PyVal.str "b".data), ("c".data, PyVal.str "d".data)] ∧
    getKeysL "x: y".data = [] := by
  exact ⟨by decide, by decide⟩

end ObsidianToOrg

namespace ObsidianToOrg

/-! ## The value-shape invariant of `get_keys` -/

theorem lookup_mem {d : List (List Char × PyVal)} {k : List Char} {v : PyVal}
    (h : d.lookup k = some v) : (k, v) ∈ d := by
  induction d with
  | nil => simp [List.lookup] at h
  | cons p t ih =>
    obtain ⟨a, b⟩ := p
    simp only [List.lookup] at h
    by_cases hk : k == a
    · rw [hk] at h
      simp only [Option.some.injEq] at h
      subst h
      have : k = a := by simpa using hk
      subst this
      exact List.mem_cons_self _ _
    · rw [Bool.not_eq_true] at hk
      rw [hk] at h
      exact List.mem_cons_of_mem _ (ih h)

theorem dictSet_mem {d : List (List Char × PyVal)} {k : List Char} {v : PyVal}
    {kv : List Char × PyVal} (h : kv ∈ dictSet d k v) : kv ∈ d ∨ kv = (k, v) := by
  unfold dictSet at h
  by_cases hex : (d.lookup k).isSome = true
  · rw [if_pos hex] at h
    obtain ⟨p, hp, hfp⟩ := List.mem_map.mp h
    by_cases hpk : p.1 = k
    · right
      rw [← hfp, if_pos hpk]
    · left
      rw [← hfp, if_neg hpk]
      exact hp
  · rw [if_neg hex] at h
    rcases List.mem_append.mp h with h | h
    · left; exact h
    · right; simpa using h

theorem normalizeVal_listKeys {key val : List Char}
    (h : key = "tags".data ∨ key = "aliases".data) :
    (normalizeVal key val).isList = true := by
  unfold normalizeVal
  have hcond : (decide (key = "tags".data) || decide (key = "aliases".data)) = true := by
    rcases h with h | h <;> simp [h]
  set v1 : PyVal := if key ≠ "title".data then maybeSplitListL val else .str val with hv1
  by_cases hl : v1.isList = true
  · rw [if_neg (by simp [hl])]
    exact hl
  · rw [Bool.not_eq_true] at hl
    rw [if_pos (by simp [hcond, hl])]
    rfl

theorem normalizeVal_title {key val : List Char} (h : key = "title".data) :
    (normalizeVal key val).isList = false := by
  subst h
  rfl

theorem processKeyLines_inv :
    ∀ (ls : List (List Char)) (acc : List (List Char × PyVal)),
      (∀ kv ∈ acc,
        ((kv.1 = "tags".data ∨ kv.1 = "aliases".data) → kv.2.isList = true) ∧
        (kv.1 = "title".data → kv.2.isList = false)) →
      ∀ kv ∈ processKeyLines ls acc,
        ((kv.1 = "tags".data ∨ kv.1 = "aliases".data) → kv.2.isList = true) ∧
        (kv.1 = "title".data → kv.2.isList = false) := by
  intro ls
  induction ls with
  | nil => intro acc hacc kv hkv; exact hacc kv hkv
  | cons line rest ih =>
    intro acc hacc kv hkv
    simp only [processKeyLines] at hkv
    by_cases hdash : line = "---\n".data
    · rw [if_pos hdash] at hkv
      exact hacc kv hkv
    · rw [if_neg hdash] at hkv
      by_cases hv0 : pyStrip (joinSep ":".data (List.drop 1 (splitOnCharL ':' line))) = []
      · rw [if_pos hv0] at hkv
        exact ih acc hacc kv hkv
      · rw [if_neg hv0] at hkv
        refine ih _ ?_ kv hkv
        intro kv2 hkv2
        rcases dictSet_mem hkv2 with hmem | heq
        · exact hacc kv2 hmem
        · subst heq
          exact ⟨fun hk => normalizeVal_listKeys hk, fun hk => normalizeVal_title hk⟩

theorem getKeys_inv (content : List Char) :
    ∀ kv ∈ getKeysL content,
      ((kv.1 = "tags".data ∨ kv.1 = "aliases".data) → kv.2.isList = true) ∧
      (kv.1 = "title".data → kv.2.isList = false) := by
  intro kv hkv
  unfold getKeysL at hkv
  cases h : splitOnCharL '\n' content with
  | nil =>
    rw [h] at hkv
    simp at hkv
  | cons first rest =>
    rw [h] at hkv
    change kv ∈ (if first = "---".data then processKeyLines rest [] else []) at hkv
    by_cases hd : first = "---".data
    · rw [if_pos hd] at hkv
      exact processKeyLines_inv rest [] (by intro kv2 hkv2; simp at hkv2) kv hkv
    · rw [if_neg hd] at hkv
      simp at hkv

theorem containsSub_append_right {p : List Char} (x : List Char) {y : List Char}
    (h : containsSub p y = true) : containsSub p (x ++ y) = true := by
  induction x with
  | nil => exact h
  | cons c cs ih =>
    rw [List.cons_append, containsSub_cons, ih, Bool.or_true]

theorem beginsWith_self (p : List Char) : beginsWith p p = true := by
  induction p with
  | nil => rfl
  | cons c cs ih => simp [beginsWith, ih]

theorem beginsWith_append_ext {p s : List Char} (y : List Char)
    (h : beginsWith p s = true) : beginsWith p (s ++ y) = true := by
  induction p generalizing s with
  | nil => rfl
  | cons c cs ih =>
    cases s with
    | nil => simp [beginsWith] at h
    | cons d ds =>
      simp only [beginsWith, Bool.and_eq_true] at h
      simp only [List.cons_append, beginsWith, Bool.and_eq_true]
      exact ⟨h.1, ih h.2⟩

theorem containsSub_append_left_ext {p x : List Char} (y : List Char)
    (h : containsSub p x = true) : containsSub p (x ++ y) = true := by
  induction x with
  | nil =>
    rw [containsSub_nil] at h
    have hp : p = [] := by
      cases p with
      | nil => rfl
      | cons a b => simp [beginsWith] at h
    subst hp
    rw [List.nil_append]
    exact containsSub_of_beginsWith rfl
  | cons c cs ih =>
    rw [containsSub_cons, Bool.or_eq_true] at h
    rw [List.cons_append, containsSub_cons]
    rcases h with h | h
    · have h2 := beginsWith_append_ext y h
      rw [List.cons_append] at h2
      rw [h2]
      simp
    · rw [ih h, Bool.or_true]

theorem containsSub_append_self_right (p x : List Char) :
    containsSub p (x ++ p) = true := by
  induction x with
  | nil =>
    rw [List.nil_append]
    cases p with
    | nil => rfl
    | cons c cs => exact containsSub_of_beginsWith (beginsWith_self _)
  | cons c cs ih =>
    rw [List.cons_append, containsSub_cons, ih, Bool.or_true]

/-- The title actually computed by `add_node_id` agrees with the amended
title rule on every frontmatter produced by `get_keys` (in particular the
list-valued `title` failure is unreachable there). -/
theorem titleOf_eq_titleAmended (content basename : List Char) :
    titleOf basename (getKeysL content) =
      some (titleAmended basename (getKeysL content)) := by
  unfold titleOf titleAmended
  cases hb : beginsWith "@".data basename with
  | true => simp
  | false =>
    cases hlk : (getKeysL content).lookup "title".data with
    | none => simp [hlk]
    | some v =>
      cases v with
      | str t => simp [hlk]
      | list l =>
        exfalso
        have hinv := (getKeys_inv content ("title".data, PyVal.list l) (lookup_mem hlk)).2 rfl
        simp [PyVal.isList] at hinv

/-- C3: for every input text, the mapping returned by `get_keys` has list
values under the `tags` and `aliases` keys whenever present (scalars are
coerced to singleton lists) and never a list under the `title` key; in
particular `tags: tag1` yields `{"tags": ["tag1"]}` and `tags: [t1,t2]`
yields `{"tags": ["t1","t2"]}`. -/
theorem get_keys_value_shapes (content : List Char) (v : PyVal) :
    ((getKeysL content).lookup "tags".data = some v → v.isList = true) ∧
    ((getKeysL content).lookup "aliases".data = some v → v.isList = true) ∧
    ((getKeysL content).lookup "title".data = some v → v.isList = false) ∧
    getKeysL "---\ntags: tag1\n".data = [("tags".data, PyVal.list ["tag1".data])] ∧
    getKeysL "---\ntags: [t1,t2]\n".data =
      [("tags".data, PyVal.list ["t1".data, "t2".data])] := by
  refine ⟨?_, ?_, ?_, by decide, by decide⟩
  · intro h
    exact (getKeys_inv content _ (lookup_mem h)).1 (Or.inl rfl)
  · intro h
    exact (getKeys_inv content _ (lookup_mem h)).1 (Or.inr rfl)
  · intro h
    exact (getKeys_inv content _ (lookup_mem h)).2 rfl

/-- Witness for C3 at a frontmatter holding all three keys. -/
theorem get_keys_value_shapes_witness :
    (PyVal.list ["t1".data]).isList = true ∧
    (PyVal.list ["a1".data]).isList = true ∧
    (PyVal.str "T".data).isList = false :=
  ⟨(get_keys_value_shapes "---\ntitle: T\ntags: t1\naliases: a1\n".data
      (PyVal.list ["t1".data])).1 (by decide),
   (get_keys_value_shapes "---\ntitle: T\ntags: t1\naliases: a1\n".data
      (PyVal.list ["a1".data])).2.1 (by decide),
   (get_keys_value_shapes "---\ntitle: T\ntags: t1\naliases: a1\n".data
      (PyVal.str "T".data)).2.2.1 (by decide)⟩

/-- C4, counterexample to the claim as stated: for the frontmatter line
`title: "abc` (a leading double quote with no closing quote), no surrounding
quote pair is present, so the claim predicts the emitted title `"abc`; the
code nevertheless strips the first and last characters and emits
`#+title: ab`. -/
theorem add_node_id_quote_strip_counterexample :
    addNodeIdL "note".data "ID".data (getKeysL "---\ntitle: \"abc\n".data) "body".data =
      some ":PROPERTIES:\n:ID: ID\n:END:\n#+title: ab\n\n\nbody".data ∧
    containsSub "#+title: \"abc".data
      ":PROPERTIES:\n:ID: ID\n:END:\n#+title: ab\n\n\nbody".data = false := by
  exact ⟨by decide, by decide⟩

/-- C4 (amended): for every note processed by `add_node_id` (whose frontmatter
comes from `get_keys`), the emitted header is the node header built on the
amended title rule — frontmatter `title` when present and the base name does
not start with `@`, with the first and last characters removed whenever the
value starts with a double quote (even if its last character is not a quote),
and the base name otherwise; when the base name starts with `@`, the title is
always the base name and the header always contains the `:ROAM_REFS:`
property derived from the base name. -/
theorem add_node_id_title_amended (content basename nodeId body : List Char) :
    addNodeIdL basename nodeId (getKeysL content) body =
      some (mkNodeHeader basename nodeId (getKeysL content)
        (titleAmended basename (getKeysL content)) body) ∧
    (beginsWith "@".data basename = true →
      titleAmended basename (getKeysL content) = basename ∧
      containsSub (":ROAM_REFS: [cite:".data ++ basename ++ "]\n".data)
        (mkNodeHeader basename nodeId (getKeysL content)
          (titleAmended basename (getKeysL content)) body) = true) := by
  constructor
  · unfold addNodeIdL
    rw [titleOf_eq_titleAmended]
    rfl
  · intro hb
    constructor
    · unfold titleAmended
      rw [if_pos hb]
    · simp only [mkNodeHeader]
      rw [if_pos hb]
      apply containsSub_append_left_ext
      apply containsSub_append_left_ext
      apply containsSub_append_left_ext
      apply containsSub_append_left_ext
      apply containsSub_append_left_ext
      apply containsSub_append_left_ext
      apply containsSub_append_left_ext
      apply containsSub_append_left_ext
      exact containsSub_append_self_right _ _

/-- Witness for C4 at a reference note `@smith2020` with a frontmatter
title. -/
theorem add_node_id_title_amended_witness :
    addNodeIdL "@smith2020".data "ID2".data (getKeysL "---\ntitle: Override\n".data) "B".data =
      some (mkNodeHeader "@smith2020".data "ID2".data (getKeysL "---\ntitle: Override\n".data)
        (titleAmended "@smith2020".data (getKeysL "---\ntitle: Override\n".data)) "B".data) ∧
    (titleAmended "@smith2020".data (getKeysL "---\ntitle: Override\n".data) = "@smith2020".data ∧
     containsSub (":ROAM_REFS: [cite:".data ++ "@smith2020".data ++ "]\n".data)
       (mkNodeHeader "@smith2020".data "ID2".data (getKeysL "---\ntitle: Override\n".data)
         (titleAmended "@smith2020".data (getKeysL "---\ntitle: Override\n".data)) "B".data) = true) :=
  ⟨(add_node_id_title_amended "---\ntitle: Override\n".data "@smith2020".data
      "ID2".data "B".data).1,
   (add_node_id_title_amended "---\ntitle: Override\n".data "@smith2020".data
      "ID2".data "B".data).2 (by decide)⟩

/-- C7: `convert_markdown_file` raises (`subprocess.run(..., check=True)`
raising `CalledProcessError`, modelled as an `.error` result) exactly when the
external engine exits with a nonzero status; on a failing invocation the
result is the bare error — none of comment restoration, link fixing or the
org-file rewrite contribute to it — and on a zero exit the org file receives
the restored and link-fixed engine output. -/
theorem convert_markdown_file_error_iff (pandoc : List Char → PandocResult)
    (md : List Char) :
    ((∃ e, convertMarkdownFileL pandoc md = .error e) ↔
      (pandoc (prepareMarkdownTextL md)).exitCode ≠ 0) ∧
    ((pandoc (prepareMarkdownTextL md)).exitCode ≠ 0 →
      convertMarkdownFileL pandoc md = .error "CalledProcessError".data) ∧
    ((pandoc (prepareMarkdownTextL md)).exitCode = 0 →
      convertMarkdownFileL pandoc md =
        .ok (fixLinksL (restoreCommentsL (pandoc (prepareMarkdownTextL md)).output))) := by
  unfold convertMarkdownFileL
  by_cases h : (pandoc (prepareMarkdownTextL md)).exitCode ≠ 0
  · rw [if_pos h]
    exact ⟨⟨fun _ => h, fun _ => ⟨_, rfl⟩⟩, fun _ => rfl, fun h0 => absurd h0 h⟩
  · rw [if_neg h]
    refine ⟨⟨fun he => absurd ?_ h, fun he => absurd he h⟩, fun he => absurd he h,
      fun _ => rfl⟩
    obtain ⟨e, he⟩ := he
    exact absurd he (by simp)

/-- Witness for C7: a stub engine failing with exit status 1, and a stub
engine succeeding with exit status 0. -/
theorem convert_markdown_file_error_iff_witness :
    convertMarkdownFileL (fun _ => ⟨1, []⟩) "hello".data =
      .error "CalledProcessError".data ∧
    convertMarkdownFileL (fun s => ⟨0, s⟩) "hello".data = .ok "hello".data :=
  ⟨(convert_markdown_file_error_iff (fun _ => ⟨1, []⟩) "hello".data).2.1 (by decide),
   by
    have h := (convert_markdown_file_error_iff (fun s => ⟨0, s⟩) "hello".data).2.2 rfl
    rw [h]
    rfl⟩

/-- C9: for every non-empty raw value string starting with `[`,
`maybeSplitList` drops both the first and the last character before
tokenizing, whether or not the last character is `]` — replacing the last
character by `]` gives the same result — and a bracket list missing its
closing bracket loses the final character of its last element:
`[a, b` tokenizes as `["a"]` and `[a, bc` as `["a", "b"]`. -/
theorem maybe_split_list_strips_last (s : List Char)
    (h1 : beginsWith "[".data s = true) (h2 : 2 ≤ s.length) :
    maybeSplitListL s = maybeSplitListL (s.dropLast ++ "]".data) ∧
    maybeSplitListL "[a, b".data = .list ["a".data] ∧
    maybeSplitListL "[a, bc".data = .list ["a".data, "b".data] := by
  refine ⟨?_, by decide, by decide⟩
  obtain ⟨c, t, rfl⟩ : ∃ c t, s = c :: t := by
    cases s with
    | nil => simp [beginsWith] at h1
    | cons c t => exact ⟨c, t, rfl⟩
  have hc : c = '[' := by
    have : beginsWith ['['] (c :: t) = true := h1
    simp [beginsWith] at this
    exact this.symm
  subst hc
  have ht : t ≠ [] := by
    intro h
    subst h
    simp at h2
  have hd : ('[' :: t).dropLast = '[' :: t.dropLast := by
    cases t with
    | nil => exact absurd rfl ht
    | cons a b => simp
  have hb2 : beginsWith "[".data ('[' :: t.dropLast ++ "]".data) = true := by
    simp [beginsWith]
  have hslice : pySlice1m1 ('[' :: t) = pySlice1m1 ('[' :: t.dropLast ++ "]".data) := by
    unfold pySlice1m1
    have g1 : ('[' :: t.dropLast ++ "]".data).drop 1 = t.dropLast ++ "]".data := by
      simp
    have g2 : (t.dropLast ++ "]".data).dropLast = t.dropLast := by
      have h3 : ("]".data : List Char) = [']'] := rfl
      rw [h3, List.dropLast_concat]
    rw [g1, g2]
    simp
  rw [hd]
  simp only [maybeSplitListL, h1, hb2, hslice, List.length_cons, List.length_append,
    Bool.true_or, Bool.and_true, Bool.true_and]
  norm_num

/-- Witness for C9 at the unterminated list `[a, b`. -/
theorem maybe_split_list_strips_last_witness :
    maybeSplitListL "[a, b".data = maybeSplitListL ("[a, b".data.dropLast ++ "]".data) ∧
    maybeSplitListL "[a, b".data = .list ["a".data] :=
  ⟨(maybe_split_list_strips_last "[a, b".data (by decide) (by decide)).1,
   (maybe_split_list_strips_last "[a, b".data (by decide) (by decide)).2.1⟩

/-! ## Line splitting lemmas, and `restore_comments` as a global replace -/

theorem splitLinesKeep_rn (r : List Char) :
    splitLinesKeep ('\r' :: '\n' :: r) = ['\r', '\n'] :: splitLinesKeep r := by
  rw [splitLinesKeep, if_pos ⟨rfl, rfl⟩]

theorem splitLinesKeep_brk {c d : Char} (r : List Char) (hcd : ¬(c = '\r' ∧ d = '\n'))
    (hb : isLineBreakChar c = true) :
    splitLinesKeep (c :: d :: r) = [c] :: splitLinesKeep (d :: r) := by
  rw [splitLinesKeep, if_neg hcd, if_pos hb]

theorem splitLinesKeep_merge {c : Char} {d : Char} (r : List Char)
    (hb : isLineBreakChar c = false) :
    splitLinesKeep (c :: d :: r) =
      match splitLinesKeep (d :: r) with
      | [] => [[c]]
      | h :: t => (c :: h) :: t := by
  have hcd : ¬(c = '\r' ∧ d = '\n') := by
    rintro ⟨h1, -⟩
    subst h1
    simp [isLineBreakChar] at hb
  rw [splitLinesKeep, if_neg hcd, if_neg (by simp [hb])]

theorem splitLinesKeep_flatten :
    ∀ n (t : List Char), t.length ≤ n → (splitLinesKeep t).flatten = t := by
  intro n
  induction n with
  | zero =>
    intro t ht
    have : t = [] := by
      cases t with
      | nil => rfl
      | cons c r => simp at ht
    subst this
    rfl
  | succ k ih =>
    intro t ht
    cases t with
    | nil => rfl
    | cons c t' =>
      cases t' with
      | nil => rfl
      | cons d r =>
        by_cases hcd : c = '\r' ∧ d = '\n'
        · obtain ⟨h1, h2⟩ := hcd
          subst h1
          subst h2
          rw [splitLinesKeep_rn]
          simp only [List.flatten_cons]
          rw [ih r (by simp at ht; omega)]
          rfl
        · by_cases hb : isLineBreakChar c = true
          · rw [splitLinesKeep_brk r hcd hb]
            simp only [List.flatten_cons]
            rw [ih (d :: r) (by simp at ht ⊢; omega)]
            rfl
          · rw [splitLinesKeep_merge r (by simpa using hb)]
            have hfl := ih (d :: r) (by simp at ht ⊢; omega)
            cases hsp : splitLinesKeep (d :: r) with
            | nil =>
              rw [hsp] at hfl
              simp at hfl
            | cons h tl =>
              rw [hsp] at hfl
              simp only [List.flatten_cons] at hfl ⊢
              rw [List.cons_append, hfl]

theorem splitLinesKeep_append_nonbreak :
    ∀ (x y : List Char), (∀ ch ∈ x, isLineBreakChar ch = false) → x ≠ [] →
      splitLinesKeep (x ++ y) =
        match splitLinesKeep y with
        | [] => [x]
        | h :: tl => (x ++ h) :: tl := by
  intro x
  induction x with
  | nil => intro y _ hne; exact absurd rfl hne
  | cons c x' ih =>
    intro y hx _
    have hc : isLineBreakChar c = false := hx c (List.mem_cons_self _ _)
    cases hx' : x' with
    | nil =>
      cases y with
      | nil => rfl
      | cons d r =>
        rw [List.singleton_append, splitLinesKeep_merge r hc]
        cases hsp : splitLinesKeep (d :: r) with
        | nil => rfl
        | cons h tl => rfl
    | cons e x'' =>
      subst hx'
      have hx'ne : (e :: x'') ≠ [] := by simp
      have hmerge : splitLinesKeep (c :: (e :: x'' ++ y)) =
          match splitLinesKeep (e :: x'' ++ y) with
          | [] => [[c]]
          | h :: t => (c :: h) :: t := by
        cases hsh : e :: x'' ++ y with
        | nil => simp at hsh
        | cons a b =>
          have ha : a = e := by
            rw [List.cons_append] at hsh
            exact (List.cons.injEq _ _ _ _ ▸ hsh).1.symm ▸ rfl
          rw [← hsh]
          rw [List.cons_append]
          exact splitLinesKeep_merge _ hc
      rw [List.cons_append, hmerge,
        ih y (fun ch hch => hx ch (List.mem_cons_of_mem _ hch)) hx'ne]
      cases hsp : splitLinesKeep y with
      | nil => rfl
      | cons h tl => rfl

theorem eq_append_of_beginsWith {p s : List Char} (h : beginsWith p s = true) :
    ∃ u, s = p ++ u := by
  induction p generalizing s with
  | nil => exact ⟨s, rfl⟩
  | cons c cs ih =>
    cases s with
    | nil => simp [beginsWith] at h
    | cons d ds =>
      simp only [beginsWith, Bool.and_eq_true, decide_eq_true_eq] at h
      obtain ⟨u, hu⟩ := ih h.2
      exact ⟨u, by rw [List.cons_append, ← hu, h.1]⟩

theorem restore_def (t : List Char) :
    restoreCommentsL t =
      ((splitLinesKeep t).map
        (fun line => replaceAllL commentMarker "# ".data line)).flatten := rfl

theorem restore_cons {c : Char} {r : List Char}
    (hbm : beginsWith commentMarker (c :: r) = false) :
    restoreCommentsL (c :: r) = c :: restoreCommentsL r := by
  cases r with
  | nil =>
    have h1 : beginsWith commentMarker [c] = false := hbm
    rw [restore_def]
    show (replaceAllL commentMarker "# ".data [c] ++ []) = _
    rw [replaceAll_neg _ h1]
    rfl
  | cons d r2 =>
    by_cases hcd : c = '\r' ∧ d = '\n'
    · obtain ⟨h1, h2⟩ := hcd
      subst h1
      subst h2
      rw [restore_def, splitLinesKeep_rn]
      simp only [List.map_cons, List.flatten_cons]
      have hR : replaceAllL commentMarker "# ".data ['\r', '\n'] = ['\r', '\n'] := by decide
      rw [hR]
      cases r2 with
      | nil => rfl
      | cons e r3 =>
        rw [restore_def ('\n' :: e :: r3),
          splitLinesKeep_brk r3 (by rintro ⟨h, -⟩; cases h) (by decide)]
        simp only [List.map_cons, List.flatten_cons]
        have hR2 : replaceAllL commentMarker "# ".data ['\n'] = ['\n'] := by decide
        rw [hR2]
        rfl
    · by_cases hb : isLineBreakChar c = true
      · rw [restore_def, splitLinesKeep_brk r2 hcd hb]
        simp only [List.map_cons, List.flatten_cons]
        have h1 : beginsWith commentMarker [c] = false := by
          cases hx : beginsWith commentMarker [c] with
          | false => rfl
          | true =>
            have := length_le_of_beginsWith hx
            simp [commentMarker] at this
        rw [replaceAll_neg _ h1]
        rfl
      · rw [restore_def, splitLinesKeep_merge r2 (by simpa using hb)]
        cases hsp : splitLinesKeep (d :: r2) with
        | nil =>
          have hfl := splitLinesKeep_flatten (d :: r2).length (d :: r2) le_rfl
          rw [hsp] at hfl
          simp at hfl
        | cons h tl =>
          have hfl := splitLinesKeep_flatten (d :: r2).length (d :: r2) le_rfl
          rw [hsp] at hfl
          simp only [List.flatten_cons] at hfl
          have hbm2 : beginsWith commentMarker (c :: h) = false := by
            cases hx : beginsWith commentMarker (c :: h) with
            | false => rfl
            | true =>
              have h2 := beginsWith_append_ext tl.flatten hx
              rw [List.cons_append, hfl] at h2
              rw [h2] at hbm
              exact absurd hbm (by simp)
          simp only [List.map_cons, List.flatten_cons]
          rw [replaceAll_neg _ hbm2, restore_def (d :: r2), hsp]
          simp

theorem restore_eq_replaceAll :
    ∀ n (t : List Char), t.length ≤ n →
      restoreCommentsL t = replaceAllL commentMarker "# ".data t := by
  intro n
  induction n with
  | zero =>
    intro t ht
    have : t = [] := by
      cases t with
      | nil => rfl
      | cons c r => simp at ht
    subst this
    rfl
  | succ k ih =>
    intro t ht
    by_cases hbm : beginsWith commentMarker t = true
    · obtain ⟨u, rfl⟩ := eq_append_of_beginsWith hbm
      rw [replaceAll_marker_step _ _ _ (by decide)]
      cases hsp : splitLinesKeep u with
      | nil =>
        have hu : u = [] := by
          have h2 := splitLinesKeep_flatten u.length u le_rfl
          rw [hsp] at h2
          simpa using h2.symm
        subst hu
        decide
      | cons h tl =>
        have hfl : h ++ tl.flatten = u := by
          have h2 := splitLinesKeep_flatten u.length u le_rfl
          rw [hsp] at h2
          simpa using h2
        rw [restore_def,
          splitLinesKeep_append_nonbreak commentMarker u (by decide) (by decide), hsp]
        simp only [List.map_cons, List.flatten_cons]
        rw [replaceAll_marker_step _ _ _ (by decide)]
        have hru : restoreCommentsL u =
            replaceAllL commentMarker "# ".data h ++
              (tl.map (fun line => replaceAllL commentMarker "# ".data line)).flatten := by
          rw [restore_def, hsp]
          simp
        have hiu : restoreCommentsL u = replaceAllL commentMarker "# ".data u := by
          apply ih u
          have hlen : (commentMarker ++ u).length = 11 + u.length := by
            rw [List.length_append]
            have h11 : commentMarker.length = 11 := by decide
            rw [h11]
          rw [hlen] at ht
          omega
        rw [← hiu, hru]
        simp [List.append_assoc]
    · cases t with
      | nil => rfl
      | cons c r =>
        rw [Bool.not_eq_true] at hbm
        rw [replaceAll_neg _ hbm, restore_cons hbm, ih r (by simpa using ht)]

theorem dropBlankFirst_sub {l : List Char} {xs : List (List Char)}
    (h : l ∈ dropBlankFirst xs) : l ∈ xs := by
  cases xs with
  | nil => simpa [dropBlankFirst] using h
  | cons first rest =>
    change l ∈ (if pyStrip first = [] then rest else first :: rest) at h
    by_cases hf : pyStrip first = []
    · rw [if_pos hf] at h
      exact List.mem_cons_of_mem _ h
    · rw [if_neg hf] at h
      exact h

theorem splitLinesKeep_line_chars {c : List Char} {l : List Char} {ch : Char}
    (hl : l ∈ splitLinesKeep c) (hch : ch ∈ l) : ch ∈ c := by
  have hfl := splitLinesKeep_flatten c.length c le_rfl
  rw [← hfl]
  exact List.mem_flatten.mpr ⟨l, hl, hch⟩

theorem replaceAll_sentinel_flat :
    ∀ (lines : List (List Char)) (b : List Char),
      (∀ l ∈ lines, '#' ∉ l) → '#' ∉ b →
      replaceAllL commentMarker "# ".data
          ((lines.map (fun l => commentMarker ++ l)).flatten ++ b) =
        (lines.map (fun l => "# ".data ++ l)).flatten ++
          replaceAllL commentMarker "# ".data b := by
  intro lines
  induction lines with
  | nil =>
    intro b _ _
    simp
  | cons l ls ih =>
    intro b hl hb
    have hlfree : '#' ∉ l := hl l (List.mem_cons_self _ _)
    have hassoc : ((l :: ls).map (fun x => commentMarker ++ x)).flatten ++ b =
        commentMarker ++ (l ++ ((ls.map (fun x => commentMarker ++ x)).flatten ++ b)) := by
      simp [List.append_assoc]
    rw [hassoc, replaceAll_marker_step _ _ _ (by decide),
      replaceAll_append_free _ _ rfl hlfree,
      ih b (fun x hx => hl x (List.mem_cons_of_mem _ hx)) hb]
    simp only [List.map_cons, List.flatten_cons, List.append_assoc]

theorem hashBang_free_flat :
    ∀ (lines : List (List Char)) (b : List Char),
      (∀ l ∈ lines, '#' ∉ l) → '#' ∉ b →
      containsSub "#!".data ((lines.map (fun l => "# ".data ++ l)).flatten ++ b) = false := by
  intro lines
  induction lines with
  | nil =>
    intro b _ hb
    simp only [List.map_nil, List.flatten_nil, List.nil_append]
    exact containsSub_false_of_head_notMem hb
  | cons l ls ih =>
    intro b hl hb
    have hlfree : '#' ∉ l := hl l (List.mem_cons_self _ _)
    have hassoc : ((l :: ls).map (fun x => "# ".data ++ x)).flatten ++ b =
        '#' :: ' ' :: (l ++ ((ls.map (fun x => "# ".data ++ x)).flatten ++ b)) := by
      simp [List.append_assoc]
    rw [hassoc, containsSub_cons, containsSub_cons]
    have h1 : beginsWith "#!".data ('#' :: ' ' :: (l ++ ((ls.map (fun x => "# ".data ++ x)).flatten ++ b))) = false := by
      simp [beginsWith]
    have h2 : beginsWith "#!".data (' ' :: (l ++ ((ls.map (fun x => "# ".data ++ x)).flatten ++ b))) = false :=
      beginsWith_cons_false (by decide)
    rw [h1, h2]
    have h3 : containsSub "#!".data (l ++ ((ls.map (fun x => "# ".data ++ x)).flatten ++ b)) = false := by
      have h4 := containsSub_append_left_free (p := ['!']) hlfree
        (y := (ls.map (fun x => "# ".data ++ x)).flatten ++ b)
      have h5 : ('#' :: ['!'] : List Char) = "#!".data := rfl
      rw [h5] at h4
      rw [h4]
      exact ih b (fun x hx => hl x (List.mem_cons_of_mem _ hx)) hb
    rw [h3]
    rfl

/-- C5: round-trip of comment rewriting, for a document `a %%c%% b` whose
pieces contain no `%` (so the two markers are the ones shown) and no `#`
(so the sentinel occurrences are the inserted ones): a single-line `%%c%%`
becomes the inline comment `<!--c-->`; a multi-line `%%c%%` becomes one
sentinel-prefixed line per kept line of `c` (the leading blank line being
dropped, per the source); `restore_comments` then turns every sentinel into
`"# "`, and no sentinel text survives in the result. -/
theorem comment_rewriting_roundtrip (a c b : List Char)
    (ha1 : '%' ∉ a) (ha2 : '#' ∉ a)
    (hc1 : '%' ∉ c) (hc2 : '#' ∉ c)
    (hb1 : '%' ∉ b) (hb2 : '#' ∉ b) :
    (c.contains '\n' = false →
      fixMarkdownCommentsL (a ++ "%%".data ++ c ++ "%%".data ++ b) =
        a ++ "<!--".data ++ c ++ "-->".data ++ b) ∧
    (c.contains '\n' = true →
      fixMarkdownCommentsL (a ++ "%%".data ++ c ++ "%%".data ++ b) =
        a ++ sentinelLines c ++ b ∧
      restoreCommentsL (a ++ sentinelLines c ++ b) = a ++ commentedLines c ++ b ∧
      containsSub commentMarker (a ++ commentedLines c ++ b) = false) := by
  have hmm : ("%%".data : List Char) = '%' :: ['%'] := rfl
  have hchunks : splitOnStrL "%%".data (a ++ "%%".data ++ c ++ "%%".data ++ b) =
      [a, c, b] := by
    have hassoc : a ++ "%%".data ++ c ++ "%%".data ++ b =
        a ++ "%%".data ++ (c ++ "%%".data ++ b) := by
      simp [List.append_assoc]
    rw [hassoc, splitOnStr_append_marker rfl _ ha1,
      splitOnStr_append_marker rfl _ hc1,
      splitOnStr_single (by rw [hmm]; exact containsSub_false_of_head_notMem hb1)]
  have hfix : fixMarkdownCommentsL (a ++ "%%".data ++ c ++ "%%".data ++ b) =
      a ++ (commentChunk c ++ (b ++ [])) := by
    unfold fixMarkdownCommentsL
    rw [hchunks]
    rfl
  have hlinesfree : ∀ l ∈ dropBlankFirst (splitLinesKeep c), '#' ∉ l := by
    intro l hl hch
    exact hc2 (splitLinesKeep_line_chars (dropBlankFirst_sub hl) hch)
  constructor
  · intro hnl
    rw [hfix]
    unfold commentChunk
    rw [if_neg (by rw [hnl]; simp)]
    simp [List.append_assoc]
  · intro hnl
    have hfix2 : fixMarkdownCommentsL (a ++ "%%".data ++ c ++ "%%".data ++ b) =
        a ++ sentinelLines c ++ b := by
      rw [hfix]
      unfold commentChunk
      rw [if_pos hnl]
      have hsl : ((dropBlankFirst (splitLinesKeep c)).map
          (fun l => commentMarker ++ l)).flatten = sentinelLines c := rfl
      rw [hsl]
      simp [List.append_assoc]
    refine ⟨hfix2, ?_, ?_⟩
    · rw [restore_eq_replaceAll (a ++ sentinelLines c ++ b).length _ le_rfl]
      have hassoc : a ++ sentinelLines c ++ b = a ++ (sentinelLines c ++ b) := by
        simp [List.append_assoc]
      rw [hassoc, replaceAll_append_free _ _ rfl ha2]
      have hsl : sentinelLines c ++ b =
          ((dropBlankFirst (splitLinesKeep c)).map
            (fun l => commentMarker ++ l)).flatten ++ b := rfl
      have hcb : containsSub commentMarker b = false := by
        have h0 := containsSub_false_of_head_notMem (c := '#') (p := "!#comment:".data) hb2
        have hM : ('#' :: "!#comment:".data : List Char) = commentMarker := rfl
        rwa [hM] at h0
      rw [hsl, replaceAll_sentinel_flat _ b hlinesfree hb2,
        replaceAll_not_contains _ hcb]
      have hcl : ((dropBlankFirst (splitLinesKeep c)).map
          (fun l => "# ".data ++ l)).flatten = commentedLines c := rfl
      rw [hcl]
      simp [List.append_assoc]
    · cases hx : containsSub commentMarker (a ++ commentedLines c ++ b) with
      | false => rfl
      | true =>
        exfalso
        have hsplit : ("#!".data ++ "#comment:".data : List Char) = commentMarker := rfl
        have h2 : containsSub "#!".data (a ++ commentedLines c ++ b) = true :=
          containsSub_of_containsSub_append (by rw [hsplit]; exact hx)
        have hassoc : a ++ commentedLines c ++ b = a ++ (commentedLines c ++ b) := by
          simp [List.append_assoc]
        rw [hassoc] at h2
        have h3 := containsSub_append_left_free (p := ['!'])
          (y := commentedLines c ++ b) ha2
        have h5 : ('#' :: ['!'] : List Char) = "#!".data := rfl
        rw [h5] at h3
        rw [h3] at h2
        have hcl : commentedLines c ++ b =
            ((dropBlankFirst (splitLinesKeep c)).map
              (fun l => "# ".data ++ l)).flatten ++ b := rfl
        rw [hcl, hashBang_free_flat _ b hlinesfree hb2] at h2
        exact absurd h2 (by simp)

/-- Witness for C5: `a = "x\n"`, multi-line comment `c = "\none\ntwo\n"`
(leading blank line dropped), `b = "y"`. -/
theorem comment_rewriting_roundtrip_witness :
    fixMarkdownCommentsL ("x\n".data ++ "%%".data ++ "\none\ntwo\n".data ++ "%%".data ++ "y".data) =
      "x\n".data ++ sentinelLines "\none\ntwo\n".data ++ "y".data ∧
    restoreCommentsL ("x\n".data ++ sentinelLines "\none\ntwo\n".data ++ "y".data) =
      "x\n".data ++ commentedLines "\none\ntwo\n".data ++ "y".data ∧
    containsSub commentMarker
      ("x\n".data ++ commentedLines "\none\ntwo\n".data ++ "y".data) = false ∧
    fixMarkdownCommentsL ("u ".data ++ "%%".data ++ "note".data ++ "%%".data ++ " v".data) =
      "u ".data ++ "<!--".data ++ "note".data ++ "-->".data ++ " v".data :=
  ⟨((comment_rewriting_roundtrip "x\n".data "\none\ntwo\n".data "y".data
      (by decide) (by decide) (by decide) (by decide) (by decide) (by decide)).2
      (by decide)).1,
   ((comment_rewriting_roundtrip "x\n".data "\none\ntwo\n".data "y".data
      (by decide) (by decide) (by decide) (by decide) (by decide) (by decide)).2
      (by decide)).2.1,
   ((comment_rewriting_roundtrip "x\n".data "\none\ntwo\n".data "y".data
      (by decide) (by decide) (by decide) (by decide) (by decide) (by decide)).2
      (by decide)).2.2,
   (comment_rewriting_roundtrip "u ".data "note".data " v".data
      (by decide) (by decide) (by decide) (by decide) (by decide) (by decide)).1
      (by decide)⟩

/-- C10: an input with an odd number of `%%` markers, written `p ++ "%%" ++ c`
where `c` (the text after the last marker) contains no further marker, `p`
holds an even number of markers (its `"%%"`-split has odd length), and `p`
does not end in `%` (so the shown marker really is a marker of the text):
`fix_markdown_comments` treats the whole trailing chunk `c` as a comment
body — sentinel-prefixed lines (with a leading blank line dropped) when `c`
has a newline, an inline `<!--c-->` otherwise — silently swallowing the
remainder of the document. -/
theorem fix_markdown_comments_unterminated (p c : List Char)
    (hlast : p.getLast? ≠ some '%')
    (hodd : (splitOnStrL "%%".data p).length % 2 = 1)
    (hc : containsSub "%%".data c = false) :
    fixMarkdownCommentsL (p ++ "%%".data ++ c) =
      fixMarkdownCommentsL p ++
        (if c.contains '\n' = true then sentinelLines c
         else "<!--".data ++ c ++ "-->".data) := by
  unfold fixMarkdownCommentsL
  rw [splitOnStr_mm_append_last p.length p c le_rfl hlast hc,
    renderChunks_append _ _ false, if_pos hodd]
  have h1 : renderChunks (!false) [c] =
      (if c.contains '\n' = true then sentinelLines c
       else "<!--".data ++ c ++ "-->".data) := by
    show commentChunk c ++ [] = _
    rw [List.append_nil]
    rfl
  rw [h1]

/-- Witness for C10 at `p = "x%%y%%z"` (two markers, so the whole text has
three) and trailing chunk `c = "one\ntwo"`. -/
theorem fix_markdown_comments_unterminated_witness :
    fixMarkdownCommentsL ("x%%y%%z".data ++ "%%".data ++ "one\ntwo".data) =
      fixMarkdownCommentsL "x%%y%%z".data ++
        (if ("one\ntwo".data).contains '\n' = true then sentinelLines "one\ntwo".data
         else "<!--".data ++ "one\ntwo".data ++ "-->".data) :=
  fix_markdown_comments_unterminated "x%%y%%z".data "one\ntwo".data
    (by decide) (by decide) (by decide)

/-! ## Lemmas for the image embed rewriting -/

theorem contains_true_of_mem {c : Char} {l : List Char} (h : c ∈ l) :
    l.contains c = true := by
  show l.elem c = true
  exact List.elem_iff.mpr h

theorem contains_false_of_not_mem {c : Char} {l : List Char} (h : c ∉ l) :
    l.contains c = false := by
  cases hx : l.contains c with
  | false => rfl
  | true => exact absurd (List.elem_iff.mp hx) h

theorem length_dropWhile_le (p : Char → Bool) (l : List Char) :
    (l.dropWhile p).length ≤ l.length := by
  induction l with
  | nil => simp
  | cons c cs ih =>
    rw [List.dropWhile]
    cases p c with
    | false => simp
    | true => simp only [List.length_cons]; omega

theorem takeWhile_append_all {p : Char → Bool} {a : List Char} (b : List Char)
    (h : ∀ x ∈ a, p x = true) : (a ++ b).takeWhile p = a ++ b.takeWhile p := by
  induction a with
  | nil => rfl
  | cons c cs ih =>
    rw [List.cons_append, List.takeWhile_cons, h c (List.mem_cons_self _ _),
      ih (fun x hx => h x (List.mem_cons_of_mem _ hx))]
    rfl

theorem dropWhile_append_all {p : Char → Bool} {a : List Char} (b : List Char)
    (h : ∀ x ∈ a, p x = true) : (a ++ b).dropWhile p = b.dropWhile p := by
  induction a with
  | nil => rfl
  | cons c cs ih =>
    rw [List.cons_append, List.dropWhile_cons, h c (List.mem_cons_self _ _)]
    exact ih (fun x hx => h x (List.mem_cons_of_mem _ hx))

theorem afterLastSlash_append {x y : List Char} (hy : '/' ∉ y) :
    afterLastSlash (x ++ '/' :: y) = y := by
  induction x with
  | nil =>
    rw [List.nil_append, afterLastSlash]
    rw [contains_false_of_not_mem hy]
    simp
  | cons c cs ih =>
    rw [List.cons_append, afterLastSlash,
      contains_true_of_mem (by simp : '/' ∈ cs ++ '/' :: y)]
    · simpa using ih

theorem beforeLastSlash_append {x y : List Char} (hy : '/' ∉ y) :
    beforeLastSlash (x ++ '/' :: y) = x := by
  induction x with
  | nil =>
    rw [List.nil_append, beforeLastSlash]
    rw [contains_false_of_not_mem hy]
    simp
  | cons c cs ih =>
    rw [List.cons_append, beforeLastSlash,
      contains_true_of_mem (by simp : '/' ∈ cs ++ '/' :: y)]
    · simpa using ih

theorem beginsWith_append_both (x : List Char) {y z : List Char} :
    beginsWith (x ++ y) (x ++ z) = beginsWith y z := by
  induction x with
  | nil => rfl
  | cons c cs ih => simp [beginsWith, ih]

theorem linkScan_none_of_dot :
    ∀ z : List Char, (∀ x ∈ z, x ≠ ']') → ∀ w : List Char,
      linkScan (z ++ '.' :: w) = none := by
  intro z
  induction z with
  | nil =>
    intro _ w
    rw [List.nil_append]
    cases w with
    | nil => rfl
    | cons e w' =>
      rw [linkScan, if_neg (fun hc => absurd hc.1 (by decide)),
        if_pos (Or.inr (Or.inr rfl))]
  | cons c cs ih =>
    intro hz w
    have hc : c ≠ ']' := hz c (List.mem_cons_self c cs)
    have ihw := ih (fun x hx => hz x (List.mem_cons_of_mem c hx)) w
    rw [List.cons_append]
    cases hs : cs ++ '.' :: w with
    | nil => exact absurd hs (by simp)
    | cons d ds =>
      rw [linkScan, if_neg (fun hcd => hc hcd.1)]
      by_cases hex : c = '|' ∨ c = '[' ∨ c = '.'
      · rw [if_pos hex]
      · rw [if_neg hex, ← hs, ihw]
        rfl

theorem descScan1_none_of_dot :
    ∀ z : List Char, (∀ x ∈ z, x ≠ '|') → ∀ w : List Char,
      descScan1 (z ++ '.' :: w) = none := by
  intro z
  induction z with
  | nil =>
    intro _ w
    rw [List.nil_append, descScan1, if_pos rfl]
  | cons c cs ih =>
    intro hz w
    have hc : c ≠ '|' := hz c (List.mem_cons_self c cs)
    have ihw := ih (fun x hx => hz x (List.mem_cons_of_mem c hx)) w
    rw [List.cons_append, descScan1]
    by_cases hdot : c = '.'
    · rw [if_pos hdot]
    · rw [if_neg hdot, if_neg hc, ihw]
      rfl

theorem containsSub_dup_head_false {c : Char} {p t : List Char} (h : c ∉ t) :
    containsSub (c :: c :: p) (c :: t) = false := by
  rw [containsSub_cons, containsSub_false_of_head_notMem h, Bool.or_false]
  cases t with
  | nil => simp [beginsWith]
  | cons d ds =>
    have hd : c ≠ d := fun he => h (he ▸ List.mem_cons_self d ds)
    simp [beginsWith, beginsWith_cons_false hd]
    exact fun he => absurd he hd

theorem subScanF_nil_none {γ : Type} {m : List Char → Option (γ × List Char)}
    (repl : γ → List Char) (h : m [] = none) (f : Nat) :
    subScanF m repl f [] = [] := by
  cases f with
  | zero => rfl
  | succ k => rw [subScanF, h]

theorem subScan_full_match {γ : Type} {m : List Char → Option (γ × List Char)}
    (repl : γ → List Char) {s : List Char} {g : γ}
    (h : m s = some (g, [])) (hnil : m [] = none) :
    subScan m repl s = repl g := by
  cases s with
  | nil => rw [hnil] at h; exact absurd h (by simp)
  | cons c cs =>
    show subScanF m repl (c :: cs).length (c :: cs) = repl g
    rw [List.length_cons, subScanF, h]
    show repl g ++ subScanF m repl cs.length [] = repl g
    rw [subScanF_nil_none repl hnil, List.append_nil]

theorem subScan_id_of_tail {γ : Type} {m : List Char → Option (γ × List Char)}
    (repl : γ → List Char) {s : List Char} (h0 : m s = none)
    (h1 : ∀ n, m ((s.drop 1).drop n) = none) :
    subScan m repl s = s := by
  apply subScan_eq_self
  intro n
  cases n with
  | zero => exact h0
  | succ k =>
    have hk := h1 k
    rw [List.drop_drop] at hk
    rwa [Nat.add_comm] at hk

theorem matchEmbed_closed_form (exts : List (List Char)) (B w : List Char)
    (hB : ∀ x ∈ B, x ≠ ']') :
    matchEmbed exts ("[[".data ++ (B ++ ("]]".data ++ w))) =
      (if (if B.contains '/' then
            (beforeLastSlash B).all (fun c => !(c = '|' || c = '[' || c = ']' || c = '.'))
          else true)
          && endsWithExt exts (if B.contains '/' then afterLastSlash B else B) then
        some ((if B.contains '/' then afterLastSlash B else B), w)
      else none) := by
  have h1 : beginsWith "![[".data ("[[".data ++ (B ++ ("]]".data ++ w))) = false := rfl
  have h2 : beginsWith "[[".data ("[[".data ++ (B ++ ("]]".data ++ w))) = true :=
    beginsWith_append_self _ _
  have htake : (B ++ ("]]".data ++ w)).takeWhile (· ≠ ']') = B := by
    rw [takeWhile_append_all _ (fun x hx => decide_eq_true (hB x hx))]
    show B ++ [] = B
    exact List.append_nil B
  have hdropW : (B ++ ("]]".data ++ w)).dropWhile (· ≠ ']') = "]]".data ++ w := by
    rw [dropWhile_append_all _ (fun x hx => decide_eq_true (hB x hx))]
    rfl
  have h3 : beginsWith "]]".data ("]]".data ++ w) = true := beginsWith_append_self _ _
  have h5 : ("]]".data ++ w).drop 2 = w := rfl
  rw [show matchEmbed exts ("[[".data ++ (B ++ ("]]".data ++ w))) =
      (let Bb := (B ++ ("]]".data ++ w)).takeWhile (· ≠ ']')
       let rest1 := (B ++ ("]]".data ++ w)).dropWhile (· ≠ ']')
       if beginsWith "]]".data rest1 then
         let R := if Bb.contains '/' then afterLastSlash Bb else Bb
         let dirOk := if Bb.contains '/' then
             (beforeLastSlash Bb).all (fun c => !(c = '|' || c = '[' || c = ']' || c = '.'))
           else true
         if dirOk && endsWithExt exts R then some (R, rest1.drop 2) else none
       else none) from rfl]
  simp only [htake, hdropW, h5]
  rw [if_pos h3]

theorem endsWithExt_self {name ext : List Char} (hne : name ≠ []) (hext : ext ∈ imageExts) :
    endsWithExt imageExts (name ++ ('.' :: ext)) = true := by
  have hlen : ext.length + 2 ≤ (name ++ ('.' :: ext)).length := by
    have := List.length_pos.mpr hne
    simp only [List.length_append, List.length_cons]
    omega
  have hend : endsW ('.' :: ext) (name ++ ('.' :: ext)) = true := by
    show beginsWith ('.' :: ext).reverse (name ++ ('.' :: ext)).reverse = true
    rw [List.reverse_append]
    exact beginsWith_append_self _ _
  show imageExts.any _ = true
  rw [List.any_eq_true]
  exact ⟨ext, hext, by rw [Bool.and_eq_true]; exact ⟨decide_eq_true hlen, hend⟩⟩

theorem endsWithExt_pdf_false (z name : List Char) {ext : List Char}
    (hext : ext ∈ imageExts) :
    endsWithExt pdfExts (z ++ (name ++ ('.' :: ext))) = false := by
  have hrev : (z ++ (name ++ ('.' :: ext))).reverse
      = ext.reverse ++ ('.' :: (name.reverse ++ z.reverse)) := by
    simp [List.reverse_append]
  have key : ∀ e : List Char,
      beginsWith ('.' :: e).reverse (ext.reverse ++ ('.' :: (name.reverse ++ z.reverse))) = false →
      endsW ('.' :: e) (z ++ (name ++ ('.' :: ext))) = false := by
    intro e he
    show beginsWith ('.' :: e).reverse (z ++ (name ++ ('.' :: ext))).reverse = false
    rw [hrev]
    exact he
  simp only [imageExts, List.mem_cons, List.not_mem_nil, or_false] at hext
  rcases hext with rfl | rfl | rfl | rfl | rfl
  all_goals
    have hpdf := key "pdf".data rfl
    have hPDF := key "PDF".data rfl
    simp [endsWithExt, pdfExts, hpdf, hPDF]

theorem imageExt_chars {ext : List Char} (hext : ext ∈ imageExts) :
    '[' ∉ ext ∧ ']' ∉ ext ∧ '%' ∉ ext ∧ '/' ∉ ext ∧ '|' ∉ ext := by
  simp only [imageExts, List.mem_cons, List.not_mem_nil, or_false] at hext
  rcases hext with rfl | rfl | rfl | rfl | rfl <;> decide

theorem fixLinks_pre {s : List Char} (hlink0 : matchLink s = none)
    (hdesc0 : matchDesc s = none)
    (htail : containsSub "[[".data (s.drop 1) = false) :
    subScan matchDesc descRepl (subScan matchLink linkRepl s) = s := by
  have hl : subScan matchLink linkRepl s = s :=
    subScan_id_of_tail _ hlink0
      (fun n => matchLink_none (beginsWith_drop_false_of_not_containsSub htail n))
  rw [hl]
  exact subScan_id_of_tail _ hdesc0
    (fun n => matchDesc_none (beginsWith_drop_false_of_not_containsSub htail n))

theorem fixLinks_posttail (name : List Char) {ext : List Char} (hext : ext ∈ imageExts)
    (hn1 : '[' ∉ name) (hn2 : ']' ∉ name) (hn3 : '%' ∉ name) (hn4 : '/' ∉ name) :
    replaceAllL "%20".data " ".data
      (subScan (matchEmbed pdfExts) pdfRepl (imageRepl (name ++ ('.' :: ext)))) =
      imageRepl (name ++ ('.' :: ext)) := by
  obtain ⟨he1, he2, he3, he4, he5⟩ := imageExt_chars hext
  have hq_r : ∀ x ∈ "org-roam-images:".data ++ (name ++ ('.' :: ext)), x ≠ ']' := by
    intro x hx he
    subst he
    rcases List.mem_append.mp hx with h | h
    · exact absurd h (by decide)
    · rcases List.mem_append.mp h with h | h
      · exact hn2 h
      · rcases List.mem_cons.mp h with h | h
        · exact absurd h (by decide)
        · exact he2 h
  have hshape : imageRepl (name ++ ('.' :: ext)) =
      "[[".data ++ (("org-roam-images:".data ++ (name ++ ('.' :: ext))) ++ "]]".data) := by
    show ("[[org-roam-images:".data ++ (name ++ ('.' :: ext))) ++ "]]".data = _
    rw [show ("[[org-roam-images:".data : List Char)
        = "[[".data ++ "org-roam-images:".data from rfl]
    simp [List.append_assoc]
  have hc : ("org-roam-images:".data ++ (name ++ ('.' :: ext))).contains '/' = false := by
    apply contains_false_of_not_mem
    simp only [List.mem_append, List.mem_cons]
    push_neg
    refine ⟨by decide, fun hx => absurd hx hn4, by decide, fun hx => absurd hx he4⟩
  have h0pdf : matchEmbed pdfExts (imageRepl (name ++ ('.' :: ext))) = none := by
    have heval := matchEmbed_closed_form pdfExts
      ("org-roam-images:".data ++ (name ++ ('.' :: ext))) [] hq_r
    rw [List.append_nil] at heval
    rw [hshape, heval]
    simp only [hc, Bool.false_eq_true, if_false]
    rw [endsWithExt_pdf_false "org-roam-images:".data name hext]
    simp only [Bool.and_false, Bool.false_eq_true, if_false]
  have hshape2 : (imageRepl (name ++ ('.' :: ext))).drop 1
      = '[' :: (("org-roam-images:".data ++ (name ++ ('.' :: ext))) ++ "]]".data) := by
    rfl
  have htail2 : containsSub "[[".data ((imageRepl (name ++ ('.' :: ext))).drop 1) = false := by
    rw [hshape2]
    apply containsSub_dup_head_false
    intro hmem
    rcases List.mem_append.mp hmem with h | h
    · rcases List.mem_append.mp h with h | h
      · exact absurd h (by decide)
      · rcases List.mem_append.mp h with h | h
        · exact hn1 h
        · rcases List.mem_cons.mp h with h | h
          · exact absurd h (by decide)
          · exact he1 h
    · exact absurd h (by decide)
  have hper : containsSub "%20".data (imageRepl (name ++ ('.' :: ext))) = false := by
    apply containsSub_false_of_head_notMem
    rw [hshape]
    intro hmem
    rcases List.mem_append.mp hmem with h | h
    · exact absurd h (by decide)
    · rcases List.mem_append.mp h with h | h
      · rcases List.mem_append.mp h with h | h
        · exact absurd h (by decide)
        · rcases List.mem_append.mp h with h | h
          · exact hn3 h
          · rcases List.mem_cons.mp h with h | h
            · exact absurd h (by decide)
            · exact he3 h
      · exact absurd h (by decide)
  rw [subScan_id_of_tail pdfRepl h0pdf (noEmbedMatches pdfExts htail2),
    replaceAll_not_contains _ hper]

theorem fixLinks_bare_embed {name ext : List Char}
    (hname : ∀ x ∈ name, x ≠ '/' ∧ x ≠ ']' ∧ x ≠ '[' ∧ x ≠ '|' ∧ x ≠ '%')
    (hne : name ≠ []) (hext : ext ∈ imageExts) :
    fixLinksL ("[[".data ++ ((name ++ ('.' :: ext)) ++ "]]".data)) =
      imageRepl (name ++ ('.' :: ext)) := by
  obtain ⟨he1, he2, he3, he4, he5⟩ := imageExt_chars hext
  have hn1 : '[' ∉ name := fun h => (hname _ h).2.2.1 rfl
  have hn2 : ']' ∉ name := fun h => (hname _ h).2.1 rfl
  have hn3 : '%' ∉ name := fun h => (hname _ h).2.2.2.2 rfl
  have hn4 : '/' ∉ name := fun h => (hname _ h).1 rfl
  have hq_r : ∀ x ∈ name ++ ('.' :: ext), x ≠ ']' := by
    intro x hx he
    subst he
    rcases List.mem_append.mp hx with h | h
    · exact hn2 h
    · rcases List.mem_cons.mp h with h | h
      · exact absurd h (by decide)
      · exact he2 h
  have hsh : (name ++ ('.' :: ext)) ++ "]]".data = name ++ ('.' :: (ext ++ "]]".data)) := by
    simp [List.append_assoc]
  have hlink0 : matchLink ("[[".data ++ ((name ++ ('.' :: ext)) ++ "]]".data)) = none := by
    show (if beginsWith "[[".data ("[[".data ++ ((name ++ ('.' :: ext)) ++ "]]".data)) = true
        then linkScan (("[[".data ++ ((name ++ ('.' :: ext)) ++ "]]".data)).drop 2)
        else none) = none
    rw [if_pos (beginsWith_append_self _ _)]
    show linkScan ((name ++ ('.' :: ext)) ++ "]]".data) = none
    rw [hsh]
    exact linkScan_none_of_dot name (fun x hx => (hname x hx).2.1) _
  have hdesc0 : matchDesc ("[[".data ++ ((name ++ ('.' :: ext)) ++ "]]".data)) = none := by
    show (if beginsWith "[[".data ("[[".data ++ ((name ++ ('.' :: ext)) ++ "]]".data)) = true
        then descScan1 (("[[".data ++ ((name ++ ('.' :: ext)) ++ "]]".data)).drop 2)
        else none) = none
    rw [if_pos (beginsWith_append_self _ _)]
    show descScan1 ((name ++ ('.' :: ext)) ++ "]]".data) = none
    rw [hsh]
    exact descScan1_none_of_dot name (fun x hx => (hname x hx).2.2.2.1) _
  have htail : containsSub "[[".data
      (("[[".data ++ ((name ++ ('.' :: ext)) ++ "]]".data)).drop 1) = false := by
    show containsSub "[[".data ('[' :: ((name ++ ('.' :: ext)) ++ "]]".data)) = false
    apply containsSub_dup_head_false
    intro hmem
    rcases List.mem_append.mp hmem with h | h
    · rcases List.mem_append.mp h with h | h
      · exact hn1 h
      · rcases List.mem_cons.mp h with h | h
        · exact absurd h (by decide)
        · exact he1 h
    · exact absurd h (by decide)
  have hc : (name ++ ('.' :: ext)).contains '/' = false := by
    apply contains_false_of_not_mem
    intro hmem
    rcases List.mem_append.mp hmem with h | h
    · exact hn4 h
    · rcases List.mem_cons.mp h with h | h
      · exact absurd h (by decide)
      · exact he4 h
  have him : matchEmbed imageExts ("[[".data ++ ((name ++ ('.' :: ext)) ++ "]]".data))
      = some (name ++ ('.' :: ext), []) := by
    have heval := matchEmbed_closed_form imageExts (name ++ ('.' :: ext)) [] hq_r
    rw [List.append_nil] at heval
    rw [heval]
    simp only [hc, Bool.false_eq_true, if_false, Bool.true_and]
    rw [endsWithExt_self hne hext]
    simp only [if_true]
  show replaceAllL "%20".data " ".data
      (subScan (matchEmbed pdfExts) pdfRepl
        (subScan (matchEmbed imageExts) imageRepl
          (subScan matchDesc descRepl
            (subScan matchLink linkRepl
              ("[[".data ++ ((name ++ ('.' :: ext)) ++ "]]".data)))))) =
      imageRepl (name ++ ('.' :: ext))
  rw [fixLinks_pre hlink0 hdesc0 htail, subScan_full_match imageRepl him rfl,
    fixLinks_posttail name hext hn1 hn2 hn3 hn4]

theorem fixLinks_prefixed_embed {p name ext : List Char}
    (hp : ∀ x ∈ p, x ≠ '.' ∧ x ≠ '|' ∧ x ≠ '[' ∧ x ≠ ']')
    (hname : ∀ x ∈ name, x ≠ '/' ∧ x ≠ ']' ∧ x ≠ '[' ∧ x ≠ '|' ∧ x ≠ '%')
    (hne : name ≠ []) (hext : ext ∈ imageExts) :
    fixLinksL ("[[".data ++ ((p ++ ('/' :: (name ++ ('.' :: ext)))) ++ "]]".data)) =
      imageRepl (name ++ ('.' :: ext)) := by
  obtain ⟨he1, he2, he3, he4, he5⟩ := imageExt_chars hext
  have hn1 : '[' ∉ name := fun h => (hname _ h).2.2.1 rfl
  have hn2 : ']' ∉ name := fun h => (hname _ h).2.1 rfl
  have hn3 : '%' ∉ name := fun h => (hname _ h).2.2.2.2 rfl
  have hn4 : '/' ∉ name := fun h => (hname _ h).1 rfl
  have hqs : '/' ∉ name ++ ('.' :: ext) := by
    intro hmem
    rcases List.mem_append.mp hmem with h | h
    · exact hn4 h
    · rcases List.mem_cons.mp h with h | h
      · exact absurd h (by decide)
      · exact he4 h
  have hB_r : ∀ x ∈ p ++ ('/' :: (name ++ ('.' :: ext))), x ≠ ']' := by
    intro x hx he
    subst he
    rcases List.mem_append.mp hx with h | h
    · exact (hp _ h).2.2.2 rfl
    · rcases List.mem_cons.mp h with h | h
      · exact absurd h (by decide)
      · rcases List.mem_append.mp h with h | h
        · exact hn2 h
        · rcases List.mem_cons.mp h with h | h
          · exact absurd h (by decide)
          · exact he2 h
  have hz_r : ∀ x ∈ p ++ ('/' :: name), x ≠ ']' := by
    intro x hx he
    subst he
    rcases List.mem_append.mp hx with h | h
    · exact (hp _ h).2.2.2 rfl
    · rcases List.mem_cons.mp h with h | h
      · exact absurd h (by decide)
      · exact hn2 h
  have hz_d : ∀ x ∈ p ++ ('/' :: name), x ≠ '|' := by
    intro x hx he
    subst he
    rcases List.mem_append.mp hx with h | h
    · exact (hp _ h).2.1 rfl
    · rcases List.mem_cons.mp h with h | h
      · exact absurd h (by decide)
      · exact (hname _ h).2.2.2.1 rfl
  have hsh : (p ++ ('/' :: (name ++ ('.' :: ext)))) ++ "]]".data
      = (p ++ ('/' :: name)) ++ ('.' :: (ext ++ "]]".data)) := by
    simp [List.append_assoc]
  have hlink0 : matchLink
      ("[[".data ++ ((p ++ ('/' :: (name ++ ('.' :: ext)))) ++ "]]".data)) = none := by
    show (if beginsWith "[[".data
          ("[[".data ++ ((p ++ ('/' :: (name ++ ('.' :: ext)))) ++ "]]".data)) = true
        then linkScan
          (("[[".data ++ ((p ++ ('/' :: (name ++ ('.' :: ext)))) ++ "]]".data)).drop 2)
        else none) = none
    rw [if_pos (beginsWith_append_self _ _)]
    show linkScan ((p ++ ('/' :: (name ++ ('.' :: ext)))) ++ "]]".data) = none
    rw [hsh]
    exact linkScan_none_of_dot _ hz_r _
  have hdesc0 : matchDesc
      ("[[".data ++ ((p ++ ('/' :: (name ++ ('.' :: ext)))) ++ "]]".data)) = none := by
    show (if beginsWith "[[".data
          ("[[".data ++ ((p ++ ('/' :: (name ++ ('.' :: ext)))) ++ "]]".data)) = true
        then descScan1
          (("[[".data ++ ((p ++ ('/' :: (name ++ ('.' :: ext)))) ++ "]]".data)).drop 2)
        else none) = none
    rw [if_pos (beginsWith_append_self _ _)]
    show descScan1 ((p ++ ('/' :: (name ++ ('.' :: ext)))) ++ "]]".data) = none
    rw [hsh]
    exact descScan1_none_of_dot _ hz_d _
  have htail : containsSub "[[".data
      (("[[".data ++ ((p ++ ('/' :: (name ++ ('.' :: ext)))) ++ "]]".data)).drop 1)
      = false := by
    show containsSub "[[".data
      ('[' :: ((p ++ ('/' :: (name ++ ('.' :: ext)))) ++ "]]".data)) = false
    apply containsSub_dup_head_false
    intro hmem
    rcases List.mem_append.mp hmem with h | h
    · rcases List.mem_append.mp h with h | h
      · exact (hp _ h).2.2.1 rfl
      · rcases List.mem_cons.mp h with h | h
        · exact absurd h (by decide)
        · rcases List.mem_append.mp h with h | h
          · exact hn1 h
          · rcases List.mem_cons.mp h with h | h
            · exact absurd h (by decide)
            · exact he1 h
    · exact absurd h (by decide)
  have hcp : (p ++ ('/' :: (name ++ ('.' :: ext)))).contains '/' = true :=
    contains_true_of_mem (List.mem_append.mpr (Or.inr (List.mem_cons_self _ _)))
  have hall : p.all (fun c => !(c = '|' || c = '[' || c = ']' || c = '.')) = true := by
    rw [List.all_eq_true]
    intro x hx
    obtain ⟨h1, h2, h3, h4⟩ := hp x hx
    simp [h1, h2, h3, h4]
  have him : matchEmbed imageExts
      ("[[".data ++ ((p ++ ('/' :: (name ++ ('.' :: ext)))) ++ "]]".data))
      = some (name ++ ('.' :: ext), []) := by
    have heval := matchEmbed_closed_form imageExts (p ++ ('/' :: (name ++ ('.' :: ext)))) [] hB_r
    rw [List.append_nil] at heval
    rw [heval]
    simp only [hcp, if_true]
    rw [afterLastSlash_append hqs, beforeLastSlash_append hqs, hall,
      endsWithExt_self hne hext]
    simp only [Bool.and_self, if_true]
  show replaceAllL "%20".data " ".data
      (subScan (matchEmbed pdfExts) pdfRepl
        (subScan (matchEmbed imageExts) imageRepl
          (subScan matchDesc descRepl
            (subScan matchLink linkRepl
              ("[[".data ++ ((p ++ ('/' :: (name ++ ('.' :: ext)))) ++ "]]".data)))))) =
      imageRepl (name ++ ('.' :: ext))
  rw [fixLinks_pre hlink0 hdesc0 htail, subScan_full_match imageRepl him rfl,
    fixLinks_posttail name hext hn1 hn2 hn3 hn4]

/-- C6: counterexample to the unconditional claim — the directory prefix of an
image embed is not always discarded.  With a `.` in the prefix (`[[a.b/example.png]]`)
the directory group `[^|\[\]\.]*` of `IMAGE_RE` cannot match, so `fix_links`
leaves the embed unchanged, while the bare embed `[[example.png]]` is rewritten
to `[[org-roam-images:example.png]]`: the two results differ. -/
theorem fix_links_dotted_dir_counterexample :
    fixLinksL "[[a.b/example.png]]".data = "[[a.b/example.png]]".data ∧
    fixLinksL "[[example.png]]".data = "[[org-roam-images:example.png]]".data := by
  constructor
  · decide
  · decide

/-- C6 (amended): `fix_links` discards the directory prefix of an image embed
whenever the prefix avoids the characters `.`, `|`, `[`, `]` excluded by the
directory group of `IMAGE_RE` (and the file name avoids `/`, `]`, `[`, `|`,
`%` and is nonempty): the embed with a directory prefix rewrites to the same
link as the bare embed, namely `[[org-roam-images:name.ext]]`.  The
unconditional claim is refuted by `fix_links_dotted_dir_counterexample`. -/
theorem fix_links_dir_discarded_amended
    (p name ext : List Char)
    (hp : ∀ x ∈ p, x ≠ '.' ∧ x ≠ '|' ∧ x ≠ '[' ∧ x ≠ ']')
    (hname : ∀ x ∈ name, x ≠ '/' ∧ x ≠ ']' ∧ x ≠ '[' ∧ x ≠ '|' ∧ x ≠ '%')
    (hne : name ≠ []) (hext : ext ∈ imageExts) :
    fixLinksL ("[[".data ++ ((p ++ ('/' :: (name ++ ('.' :: ext)))) ++ "]]".data)) =
      fixLinksL ("[[".data ++ ((name ++ ('.' :: ext)) ++ "]]".data)) ∧
    fixLinksL ("[[".data ++ ((name ++ ('.' :: ext)) ++ "]]".data)) =
      "[[org-roam-images:".data ++ (name ++ ('.' :: ext)) ++ "]]".data := by
  have hb := fixLinks_bare_embed hname hne hext
  have hpfx := fixLinks_prefixed_embed hp hname hne hext
  exact ⟨hpfx.trans hb.symm, hb⟩

theorem fix_links_dir_discarded_amended_witness :
    fixLinksL "[[attachments/example.png]]".data = fixLinksL "[[example.png]]".data ∧
    fixLinksL "[[example.png]]".data = "[[org-roam-images:example.png]]".data := by
  have h := fix_links_dir_discarded_amended "attachments".data "example".data "png".data
    (by decide) (by decide) (by decide) (by decide)
  exact ⟨h.1, h.2⟩
end ObsidianToOrg
